import Mathlib

/- Batteries marks the `Rat` field operations `@[irreducible]`; re-open them so
that concrete rational computations reduce definitionally (the kernel ignores
reducibility attributes, so this changes nothing about what is provable). -/
unseal Rat.add Rat.mul Rat.sub Rat.inv

/-!
Shallow embedding of the NbaRotationsTool core (src/rotation_tool/state_manager.py,
src/rotation_tool/archetypes.py, src/rotation_tool/data_model.py) in Lean 4.

Python floats are modelled as exact rationals (ℚ); list indexing `l[i]` guarded by
`i < len(l)` is modelled with `List.getD`.  Functions that mutate the `Player`
dataclass in place are modelled as functions returning the updated `Player`.
-/

namespace NbaRotations

/-- `state_manager.Archetype` (mirrors the Python dataclass). -/
structure Archetype where
  id : String
  name : String
  starter : Bool
  stint_pattern : List String
deriving DecidableEq, Repr

/-- `data_model.Player`.  The optional `archetype_id` keeps Python's
`Optional[str]`; `stints` (concrete stint cache) is carried but never touched by
the embedded functions, exactly as in `state_manager.py`. -/
structure Player where
  player_id : String
  name : String
  team : String
  archetype_id : Option String
  expected_minutes : ℚ
  closer_weighting : ℚ
  stddev_scaler : ℚ
  stints_raw : List ℚ
deriving DecidableEq, Repr

/-- `data_model.Team` (only the fields the core reads). -/
structure Team where
  name : String
  players : List Player
deriving DecidableEq, Repr

/-- `archetypes.ARCHETYPES` — the embedded catalog table, verbatim. -/
def ARCHETYPES : List Archetype :=
  [ ⟨"StarterCloserThreeStints", "Starter, 3 on-stints, closer-capable", true,
      ["on", "off", "on", "off", "on"]⟩,
    ⟨"StarterCloserFourStints", "Starter, 4 on-stints, closer-capable", true,
      ["on", "off", "on", "off", "on", "off", "on"]⟩,
    ⟨"StarterCloserFiveStints", "Starter, 5 on-stints, closer-capable", true,
      ["on", "off", "on", "off", "on", "off", "on", "off", "on"]⟩,
    ⟨"NonStarterNonCloserOneStint", "Bench, single on-stint, non-closer", false,
      ["off", "on", "off"]⟩,
    ⟨"NonStarterNonCloserTwoStints", "Bench, 2 on-stints, non-closer", false,
      ["off", "on", "off", "on", "off"]⟩,
    ⟨"NonStarterNonCloserThreeStints", "Bench, 3 on-stints, non-closer", false,
      ["off", "on", "off", "on", "off", "on", "off"]⟩,
    ⟨"NonStarterCloserThreeStints", "Bench, 3 on-stints, closer-capable", false,
      ["off", "on", "off", "on", "off", "on"]⟩,
    ⟨"NonStarterCloserFourStints", "Bench, 4 on-stints, closer-capable", false,
      ["off", "on", "off", "on", "off", "on", "off", "on"]⟩,
    ⟨"GarbageTime", "Garbage Time (does not play)", false, ["off"]⟩,
    ⟨"Star", "Star (special rule must sub off at 12 and 36 min)", true,
      ["on", "off", "on", "off", "on"]⟩ ]

/-- `get_config().archetypes.get(aid)` — catalog lookup (ids are unique, so the
dict built by `get_config` agrees with first-match search). -/
def findArch (aid : String) : Option Archetype :=
  ARCHETYPES.find? (fun a => a.id == aid)

/-- The guard sequence `if not player.archetype_id: ... cfg.archetypes.get(...)`
shared by `compute_segments` / `apply_boundaries`: Python's falsiness of
`None` and `""` followed by the dict lookup. -/
def resolveArch (p : Player) : Option Archetype :=
  match p.archetype_id with
  | none => none
  | some aid => if aid = "" then none else findArch aid

/-- Indices of `"on"` stints, as collected by `split_on_off_indices`. -/
def onIndices (pattern : List String) : List ℕ :=
  (List.range pattern.length).filter (fun i => pattern.getD i "" == "on")

/-- Indices of non-`"on"` stints, as collected by `split_on_off_indices`. -/
def offIndices (pattern : List String) : List ℕ :=
  (List.range pattern.length).filter (fun i => !(pattern.getD i "" == "on"))

/-- `state_manager.split_on_off_indices`. -/
def split_on_off_indices (aid : String) : List ℕ × List ℕ :=
  match findArch aid with
  | none => ([], [])
  | some arch => (onIndices arch.stint_pattern, offIndices arch.stint_pattern)

/-- `for i in idxs: raw[i] = v` — overwrite the listed positions. -/
def fillIdx (raw : List ℚ) (idxs : List ℕ) (v : ℚ) : List ℚ :=
  raw.mapIdx (fun i x => if i ∈ idxs then v else x)

/-- `state_manager._ensure_default_percentages`. -/
def ensure_default_percentages (p : Player) : List ℚ :=
  match resolveArch p with
  | none => p.stints_raw
  | some arch =>
    let pattern := arch.stint_pattern
    let L := pattern.length
    let raw := p.stints_raw ++ List.replicate (L - p.stints_raw.length) 0
    let onI := onIndices pattern
    let offI := offIndices pattern
    let onSum := (onI.map (fun i => raw.getD i 0)).sum
    let offSum := (offI.map (fun i => raw.getD i 0)).sum
    let raw1 := if onI ≠ [] ∧ onSum = 0 then fillIdx raw onI (1 / (onI.length : ℚ)) else raw
    let raw2 := if offI ≠ [] ∧ offSum = 0 then fillIdx raw1 offI (1 / (offI.length : ℚ)) else raw1
    raw2.take L

/-- Per-stint durations in pattern order (the `durations` list of
`compute_segments`), paired with the stint tag. -/
def stintDurations (raw : List ℚ) (pattern : List String) (onT offT : ℚ) :
    List (ℚ × String) :=
  pattern.enum.map (fun it =>
    let pct := raw.getD it.1 0
    if it.2 = "on" then ((if onT > 0 then pct * onT else 0), it.2)
    else ((if offT > 0 then pct * offT else 0), it.2))

/-- The accumulation loop of `compute_segments`: running start `t`, duration
floored at 0, running end clamped to 48. -/
def accumSegs (t : ℚ) : List (ℚ × String) → List (ℚ × ℚ × String)
  | [] => []
  | (d, tag) :: rest =>
    let dd := max 0 d
    let e := min 48 (t + dd)
    (t, e, tag) :: accumSegs e rest

/-- The drift guard `segs[-1] = (s, 48.0, tag)` of `compute_segments`. -/
def forceLast48 : List (ℚ × ℚ × String) → List (ℚ × ℚ × String)
  | [] => []
  | [(s, _, tag)] => [(s, 48, tag)]
  | x :: y :: rest => x :: forceLast48 (y :: rest)

/-- `state_manager.compute_segments`. -/
def compute_segments (p : Player) : List (ℚ × ℚ × String) :=
  match resolveArch p with
  | none => []
  | some arch =>
    let raw := ensure_default_percentages p
    let onT := max 0 (min 48 p.expected_minutes)
    let offT := max 0 (48 - onT)
    forceLast48 (accumSegs 0 (stintDurations raw arch.stint_pattern onT offT))

/-- The best-effort clamp loop of `compute_default_boundaries`:
`val = max(last + 0.001, min(48.0, e))`. -/
def defaultClamp (last : ℚ) : List ℚ → List ℚ
  | [] => []
  | e :: rest =>
    let v := max (last + 1/1000) (min 48 e)
    v :: defaultClamp v rest

/-- `state_manager.compute_default_boundaries`. -/
def compute_default_boundaries (p : Player) : List ℚ :=
  let segs := compute_segments p
  if segs.isEmpty then []
  else defaultClamp 0 ((segs.dropLast).map (fun s => s.2.1))

/-- The sanitizing loop of `apply_boundaries`; `fuel = L - 1 - k` counts the
boundaries still to produce, so the upper clamp `48 - (L - 1 - (k + 1)) * min_gap`
is `48 - (fuel - 1) * min_gap` at each unfolding. -/
def sanitizeGo (minGap : ℚ) (ends : List ℚ) : ℕ → ℕ → ℚ → List ℚ
  | 0, _, _ => []
  | fuel + 1, k, last =>
    let raw := ends.getD k (last + minGap)
    let val := max (last + minGap) (min (48 - (fuel : ℚ) * minGap) raw)
    val :: sanitizeGo minGap ends fuel (k + 1) val

/-- `ends = list(ends[:L-1])` followed by the sanitizing loop of
`apply_boundaries` (lines 204-212 of `state_manager.py`). -/
def sanitize_ends (minGap : ℚ) (L : ℕ) (ends : List ℚ) : List ℚ :=
  sanitizeGo minGap (ends.take (L - 1)) (L - 1) 0 0

/-- Lines 214-227 of `state_manager.apply_boundaries`: rebuild the segment
starts `[0] ++ outEnds` and ends `outEnds ++ [48]` from the sanitized
boundaries and take the floored elementwise differences. -/
def boundaryDurations (outEnds : List ℚ) : List ℚ :=
  List.zipWith (fun e s => max 0 (e - s)) (outEnds ++ [48]) (0 :: outEnds)

/-- `state_manager.apply_boundaries` (mutation modelled as returning the
updated player). -/
def apply_boundaries (p : Player) (ends : List ℚ) (minGap : ℚ) : Player :=
  match resolveArch p with
  | none => p
  | some arch =>
    let pattern := arch.stint_pattern
    let L := pattern.length
    if L = 0 then p
    else
      let outEnds := sanitize_ends minGap L ends
      let durations := boundaryDurations outEnds
      let onI := onIndices pattern
      let offI := offIndices pattern
      let onTotal := (onI.map (fun i => durations.getD i 0)).sum
      let offTotal := (offI.map (fun i => durations.getD i 0)).sum
      let raw := (List.range L).map (fun i =>
        if i ∈ onI then (if onTotal > 0 then durations.getD i 0 / onTotal else 0)
        else if i ∈ offI then (if offTotal > 0 then durations.getD i 0 / offTotal else 0)
        else 0)
      { p with expected_minutes := max 0 (min 48 onTotal), stints_raw := raw }

/-- The event list of `team_oncourt_steps` contributed by one segment:
`(start, +1)` and `(end, -1)` for positive-width on-segments, clamped to
`[0, 48]`. -/
def segEvents (seg : ℚ × ℚ × String) : List (ℚ × ℤ) :=
  if seg.2.2 = "on" ∧ seg.2.1 > seg.1 then
    [(max 0 (min 48 seg.1), 1), (max 0 (min 48 seg.2.1), -1)]
  else []

/-- All events of `team_oncourt_steps`, including the `(0, 0)` / `(48, 0)`
domain markers. -/
def eventsOf (team : Team) : List (ℚ × ℤ) :=
  (team.players.flatMap (fun p => (compute_segments p).flatMap segEvents))
    ++ [(0, 0), (48, 0)]

/-- The Python sort key `lambda x: (x[0], x[1])`: lexicographic order on
(time, delta). -/
def evLEp (a b : ℚ × ℤ) : Prop :=
  a.1 < b.1 ∨ (a.1 = b.1 ∧ a.2 ≤ b.2)

instance : DecidableRel evLEp := fun a b =>
  decidable_of_iff (a.1 < b.1 ∨ (a.1 = b.1 ∧ a.2 ≤ b.2)) Iff.rfl

instance : IsTotal (ℚ × ℤ) evLEp where
  total a b := by
    unfold evLEp
    rcases lt_trichotomy a.1 b.1 with h | h | h
    · exact Or.inl (Or.inl h)
    · rcases le_total a.2 b.2 with h2 | h2
      · exact Or.inl (Or.inr ⟨h, h2⟩)
      · exact Or.inr (Or.inr ⟨h.symm, h2⟩)
    · exact Or.inr (Or.inl h)

instance : IsTrans (ℚ × ℤ) evLEp where
  trans a b c hab hbc := by
    unfold evLEp at *
    rcases hab with h1 | ⟨h1, h1'⟩ <;> rcases hbc with h2 | ⟨h2, h2'⟩
    · exact Or.inl (h1.trans h2)
    · exact Or.inl (h2 ▸ h1)
    · exact Or.inl (h1 ▸ h2)
    · exact Or.inr ⟨h1.trans h2, h1'.trans h2'⟩

/-- `events.sort(key=lambda x: (x[0], x[1]))`.  Python's `list.sort` is a
stable sort by the key; events with equal keys are equal pairs, so any sort
produces the same list — modelled with `List.insertionSort`. -/
def sortedEvents (team : Team) : List (ℚ × ℤ) :=
  List.insertionSort evLEp (eventsOf team)

/-- The emission loop of `team_oncourt_steps` (lines 272-283): extends `xs`,
`ys` with the horizontal run and vertical jump of each event. -/
def stepLoop : List (ℚ × ℤ) → List ℚ → List ℤ → ℤ → ℚ → List ℚ × List ℤ
  | [], xs, ys, _, _ => (xs, ys)
  | (t, d) :: rest, xs, ys, curr, last_t =>
    let xs1 := if xs = [] then xs ++ [last_t] else xs
    let ys1 := if xs = [] then ys ++ [curr] else ys
    let xs2 := if t ≠ last_t then xs1 ++ [t] else xs1
    let ys2 := if t ≠ last_t then ys1 ++ [curr] else ys1
    let lt2 := if t ≠ last_t then t else last_t
    let c2 := curr + d
    stepLoop rest (xs2 ++ [t]) (ys2 ++ [c2]) c2 lt2

/-- `math.isclose(a, b)` with the default `rel_tol=1e-9`, `abs_tol=0.0`. -/
def isclose (a b : ℚ) : Bool :=
  |a - b| ≤ max |a| |b| * (1 / 1000000000)

/-- The duplicate-tidying loop of `team_oncourt_steps` (lines 287-291), on the
zipped point list; `lastX`, `lastY` are the previously kept point. -/
def dedupGo (lastX : ℚ) (lastY : ℤ) : List (ℚ × ℤ) → List (ℚ × ℤ)
  | [] => []
  | (x, y) :: rest =>
    if isclose x lastX ∧ y = lastY then dedupGo lastX lastY rest
    else (x, y) :: dedupGo x y rest

/-- The final `if out_x[-1] != 48.0` fix-up of `team_oncourt_steps`. -/
def fix48 (pts : List (ℚ × ℤ)) : List (ℚ × ℤ) :=
  match pts.getLast? with
  | none => pts
  | some (x, y) => if x ≠ 48 then pts ++ [(48, y)] else pts

/-- `state_manager.team_oncourt_steps`.  The event list always contains the two
domain markers, so the loop output is never empty; the fallback branch is
unreachable. -/
def team_oncourt_steps (team : Team) : List ℚ × List ℤ :=
  let sorted := sortedEvents team
  let xy := stepLoop sorted [] [] 0 0
  match xy.1, xy.2 with
  | x0 :: xrest, y0 :: yrest =>
    let pts := (x0, y0) :: dedupGo x0 y0 (xrest.zip yrest)
    let pts := fix48 pts
    (pts.map Prod.fst, pts.map Prod.snd)
  | _, _ => ([], [])

/-- A sample player record (identity fields are irrelevant to the core). -/
def samplePlayer (aid : Option String) (em : ℚ) (raw : List ℚ) : Player :=
  ⟨"p1", "P", "Home", aid, em, 0, 1, raw⟩

/-! ### Structural facts about `compute_segments` -/

/-- Contiguity relation between adjacent segments: the next start is the
previous end. -/
def Contig (a b : ℚ × ℚ × String) : Prop := b.1 = a.2.1

theorem accumSegs_length (l : List (ℚ × String)) : ∀ t, (accumSegs t l).length = l.length := by
  induction l with
  | nil => intro t; rfl
  | cons hd tl ih =>
    intro t
    obtain ⟨d, tag⟩ := hd
    simp [accumSegs, ih]

theorem accumSegs_map_tag (l : List (ℚ × String)) :
    ∀ t, (accumSegs t l).map (fun s => s.2.2) = l.map (fun x => x.2) := by
  induction l with
  | nil => intro t; rfl
  | cons hd tl ih =>
    intro t
    obtain ⟨d, tag⟩ := hd
    simp [accumSegs, ih]

theorem accumSegs_head_start (l : List (ℚ × String)) (t : ℚ) :
    ∀ s, (accumSegs t l).head? = some s → s.1 = t := by
  cases l with
  | nil => intro s h; simp [accumSegs] at h
  | cons hd tl =>
    intro s h
    obtain ⟨d, tag⟩ := hd
    simp [accumSegs] at h
    rw [← h]

theorem accumSegs_bounds (l : List (ℚ × String)) :
    ∀ t, 0 ≤ t → t ≤ 48 → ∀ s ∈ accumSegs t l, 0 ≤ s.1 ∧ s.1 ≤ s.2.1 ∧ s.2.1 ≤ 48 := by
  induction l with
  | nil => intro t _ _ s hs; simp [accumSegs] at hs
  | cons hd tl ih =>
    intro t h0 h48 s hs
    obtain ⟨d, tag⟩ := hd
    simp only [accumSegs, List.mem_cons] at hs
    rcases hs with hs | hs
    · subst hs
      refine ⟨h0, ?_, ?_⟩
      · exact le_min h48 (by have := le_max_left (0:ℚ) d; linarith)
      · exact min_le_left _ _
    · have he0 : (0:ℚ) ≤ min 48 (t + max 0 d) :=
        le_min (by norm_num) (by have := le_max_left (0:ℚ) d; linarith)
      exact ih _ he0 (min_le_left _ _) s hs

theorem accumSegs_chain (l : List (ℚ × String)) :
    ∀ t, List.Chain' Contig (accumSegs t l) := by
  induction l with
  | nil => intro t; simp [accumSegs]
  | cons hd tl ih =>
    intro t
    obtain ⟨d, tag⟩ := hd
    simp only [accumSegs]
    rw [List.chain'_cons']
    exact ⟨fun y hy => accumSegs_head_start _ _ y (by simpa using hy), ih _⟩

theorem forceLast48_length : ∀ l : List (ℚ × ℚ × String), (forceLast48 l).length = l.length
  | [] => rfl
  | [(_, _, _)] => rfl
  | _ :: y :: rest => by
    simp only [forceLast48, List.length_cons, forceLast48_length (y :: rest)]

theorem forceLast48_map_tag : ∀ l : List (ℚ × ℚ × String),
    (forceLast48 l).map (fun s => s.2.2) = l.map (fun s => s.2.2)
  | [] => rfl
  | [(_, _, _)] => rfl
  | _ :: y :: rest => by
    simp only [forceLast48, List.map_cons, forceLast48_map_tag (y :: rest)]

theorem forceLast48_head_start : ∀ l : List (ℚ × ℚ × String),
    (forceLast48 l).head?.map (fun s => s.1) = l.head?.map (fun s => s.1)
  | [] => rfl
  | [(_, _, _)] => rfl
  | _ :: _ :: _ => rfl

theorem forceLast48_getLast_end : ∀ l : List (ℚ × ℚ × String), l ≠ [] →
    ∀ s, (forceLast48 l).getLast? = some s → s.2.1 = 48
  | [], h => absurd rfl h
  | [(a, b, tag)], _ => by intro s hs; simp [forceLast48] at hs; rw [← hs]
  | ⟨xa, xb, xt⟩ :: y :: rest, _ => by
    intro s hs
    rw [forceLast48] at hs
    cases hfl : forceLast48 (y :: rest) with
    | nil =>
      have := forceLast48_length (y :: rest)
      rw [hfl] at this
      simp at this
    | cons z zs =>
      rw [hfl, List.getLast?_cons_cons] at hs
      rw [← hfl] at hs
      exact forceLast48_getLast_end (y :: rest) (by simp) s hs

theorem forceLast48_chain : ∀ l : List (ℚ × ℚ × String),
    List.Chain' Contig l → List.Chain' Contig (forceLast48 l)
  | [], _ => by simp [forceLast48]
  | [(a, b, tag)], _ => by simp [forceLast48]
  | x :: y :: rest, h => by
    rw [forceLast48, List.chain'_cons']
    rw [List.chain'_cons'] at h
    constructor
    · intro z hz
      have hhd := forceLast48_head_start (y :: rest)
      have hy : ((y :: rest).head?.map (fun s => s.1)) = some y.1 := by simp
      rw [hy] at hhd
      have hz1 : z.1 = y.1 := by
        have : (forceLast48 (y :: rest)).head?.map (fun s => s.1) = some z.1 := by
          rw [hz]; rfl
        rw [hhd] at this
        exact (Option.some_inj.mp this).symm
      have := h.1 y (by simp)
      unfold Contig at this ⊢
      rw [hz1, this]
    · exact forceLast48_chain (y :: rest) h.2

theorem forceLast48_bounds : ∀ l : List (ℚ × ℚ × String),
    (∀ s ∈ l, 0 ≤ s.1 ∧ s.1 ≤ s.2.1 ∧ s.2.1 ≤ 48) →
    ∀ s ∈ forceLast48 l, 0 ≤ s.1 ∧ s.1 ≤ s.2.1 ∧ s.2.1 ≤ 48
  | [], _ => by simp [forceLast48]
  | [(a, b, tag)], h => by
    intro s hs
    simp only [forceLast48, List.mem_singleton] at hs
    subst hs
    have := h (a, b, tag) (by simp)
    refine ⟨this.1, ?_, le_refl _⟩
    exact le_trans this.2.1 this.2.2
  | ⟨xa, xb, xt⟩ :: y :: rest, h => by
    intro s hs
    rw [forceLast48] at hs
    rcases List.mem_cons.mp hs with hs | hs
    · subst hs; exact h _ (by simp)
    · exact forceLast48_bounds (y :: rest) (fun z hz => h z (List.mem_cons_of_mem _ hz)) s hs

theorem stintDurations_length (raw : List ℚ) (pattern : List String) (a b : ℚ) :
    (stintDurations raw pattern a b).length = pattern.length := by
  simp [stintDurations, List.enum_eq_enumFrom]

theorem stintDurations_map_tag (raw : List ℚ) (pattern : List String) (a b : ℚ) :
    (stintDurations raw pattern a b).map (fun x => x.2) = pattern := by
  rw [stintDurations, List.map_map]
  have : ((fun x : ℚ × String => x.2) ∘ fun it : ℕ × String =>
      if it.2 = "on" then ((if a > 0 then raw.getD it.1 0 * a else 0), it.2)
      else ((if b > 0 then raw.getD it.1 0 * b else 0), it.2)) = Prod.snd := by
    funext it
    by_cases h : it.2 = "on" <;> simp [h]
  rw [this, List.enum_eq_enumFrom, List.enumFrom_map_snd]

/-- Structural properties of `compute_segments` under a resolved archetype
(shared helper). -/
theorem compute_segments_props (p : Player) (arch : Archetype)
    (h : resolveArch p = some arch) :
    (compute_segments p).length = arch.stint_pattern.length ∧
    (compute_segments p).map (fun s => s.2.2) = arch.stint_pattern ∧
    List.Chain' Contig (compute_segments p) ∧
    (∀ s ∈ compute_segments p, 0 ≤ s.1 ∧ s.1 ≤ s.2.1 ∧ s.2.1 ≤ 48) ∧
    (∀ s, (compute_segments p).head? = some s → s.1 = 0) ∧
    (∀ s, (compute_segments p).getLast? = some s → s.2.1 = 48) := by
  have hcs : compute_segments p =
      forceLast48 (accumSegs 0 (stintDurations (ensure_default_percentages p)
        arch.stint_pattern (max 0 (min 48 p.expected_minutes))
        (max 0 (48 - max 0 (min 48 p.expected_minutes))))) := by
    rw [compute_segments, h]
  set dl := stintDurations (ensure_default_percentages p) arch.stint_pattern
    (max 0 (min 48 p.expected_minutes))
    (max 0 (48 - max 0 (min 48 p.expected_minutes))) with hdl
  refine ⟨?_, ?_, ?_, ?_, ?_, ?_⟩
  · rw [hcs, forceLast48_length, accumSegs_length, stintDurations_length]
  · rw [hcs, forceLast48_map_tag, accumSegs_map_tag, hdl, stintDurations_map_tag]
  · rw [hcs]; exact forceLast48_chain _ (accumSegs_chain _ _)
  · rw [hcs]
    exact forceLast48_bounds _ (accumSegs_bounds _ _ (le_refl 0) (by norm_num))
  · intro s hs
    rw [hcs] at hs
    have h1 := forceLast48_head_start (accumSegs 0 dl)
    have : (forceLast48 (accumSegs 0 dl)).head?.map (fun s => s.1) = some s.1 := by
      rw [hs]; rfl
    rw [h1] at this
    cases hh : (accumSegs 0 dl).head? with
    | none => rw [hh] at this; simp at this
    | some z =>
      rw [hh] at this
      have hz : z.1 = s.1 := by simpa using this
      rw [← hz]
      exact accumSegs_head_start _ _ z hh
  · intro s hs
    rw [hcs] at hs
    apply forceLast48_getLast_end (accumSegs 0 dl) ?_ s hs
    intro hc
    rw [hc] at hs
    simp [forceLast48] at hs

/-- Unconditional segment bounds: every segment of `compute_segments` has
`0 ≤ start ≤ end ≤ 48` (empty output when the archetype does not resolve). -/
theorem compute_segments_bounds_all (p : Player) :
    ∀ s ∈ compute_segments p, 0 ≤ s.1 ∧ s.1 ≤ s.2.1 ∧ s.2.1 ≤ 48 := by
  cases hr : resolveArch p with
  | none => simp [compute_segments, hr]
  | some arch => exact (compute_segments_props p arch hr).2.2.2.1

/-- Claim C1: For every player whose archetype resolves with pattern length L,
`compute_segments` returns exactly L segments in pattern order, contiguous
(each start equals the previous end), with `0 ≤ start ≤ end ≤ 48`, starting at
0, and with the last end equal to 48 exactly — for every `expected_minutes`
and every `stints_raw` list. -/
theorem compute_segments_cover (p : Player) (arch : Archetype)
    (h : resolveArch p = some arch) :
    (compute_segments p).length = arch.stint_pattern.length ∧
    (compute_segments p).map (fun s => s.2.2) = arch.stint_pattern ∧
    List.Chain' Contig (compute_segments p) ∧
    (∀ s ∈ compute_segments p, 0 ≤ s.1 ∧ s.1 ≤ s.2.1 ∧ s.2.1 ≤ 48) ∧
    (∀ s, (compute_segments p).head? = some s → s.1 = 0) ∧
    (∀ s, (compute_segments p).getLast? = some s → s.2.1 = 48) :=
  compute_segments_props p arch h

/-- Witness for C1 at a concrete player (archetype `StarterCloserThreeStints`,
`expected_minutes = 30`, empty `stints_raw`). -/
theorem compute_segments_cover_witness :
    (compute_segments (samplePlayer (some "StarterCloserThreeStints") 30 [])).length = 5 := by
  have h := compute_segments_cover (samplePlayer (some "StarterCloserThreeStints") 30 [])
    ⟨"StarterCloserThreeStints", "Starter, 3 on-stints, closer-capable", true,
      ["on", "off", "on", "off", "on"]⟩ (by decide)
  exact h.1

/-! ### Unresolved archetypes degrade to no-ops (C9) -/

/-- Claim C9: for every player whose `archetype_id` is absent, empty, or not in
the catalog, `compute_segments` and `compute_default_boundaries` return `[]`
and `apply_boundaries` leaves the player unchanged, for every `ends` and
`min_gap`. -/
theorem unresolved_archetype_noop (p : Player)
    (h : ∀ aid, p.archetype_id = some aid → aid = "" ∨ findArch aid = none) :
    compute_segments p = [] ∧ compute_default_boundaries p = [] ∧
    ∀ ends minGap, apply_boundaries p ends minGap = p := by
  have hr : resolveArch p = none := by
    unfold resolveArch
    cases hp : p.archetype_id with
    | none => rfl
    | some aid =>
      rcases h aid hp with he | hf
      · simp [he]
      · simp [hf]
  have hseg : compute_segments p = [] := by simp [compute_segments, hr]
  refine ⟨hseg, ?_, ?_⟩
  · simp [compute_default_boundaries, hseg]
  · intro ends minGap
    simp [apply_boundaries, hr]

/-- Witness for C9 at a player whose archetype id is not in the catalog. -/
theorem unresolved_archetype_noop_witness :
    compute_segments (samplePlayer (some "Nobody") 30 [1]) = [] ∧
    compute_default_boundaries (samplePlayer (some "Nobody") 30 [1]) = [] ∧
    apply_boundaries (samplePlayer (some "Nobody") 30 [1]) [10] 1 =
      samplePlayer (some "Nobody") 30 [1] := by
  have h := unresolved_archetype_noop (samplePlayer (some "Nobody") 30 [1]) (by
    intro aid ha
    right
    cases ha
    decide)
  exact ⟨h.1, h.2.1, h.2.2 [10] 1⟩

/-! ### Default boundaries can exceed 48 (C10) -/

/-- Claim C10: `compute_default_boundaries` does not keep its output inside
`[0, 48]`: for `StarterCloserThreeStints` with `expected_minutes = 48` and
`stints_raw = [1, 0, 0, 0, 0]` the strictly-increasing adjustment produces
boundaries strictly greater than 48. -/
theorem default_boundaries_can_exceed_48 :
    compute_default_boundaries (samplePlayer (some "StarterCloserThreeStints") 48 [1, 0, 0, 0, 0])
      = [48, 48001/1000, 24001/500, 48003/1000] ∧
    (48 : ℚ) < 48001/1000 ∧ (48 : ℚ) < 24001/500 ∧ (48 : ℚ) < 48003/1000 := by
  refine ⟨by decide, by norm_num, by norm_num, by norm_num⟩

/-! ### `apply_boundaries` on a single-stint archetype (C4) -/

/-- Counterexample to C4: on a `GarbageTime` player (pattern length 1),
`apply_boundaries` is not a no-op — it overwrites `expected_minutes` (12 ↦ 0)
and `stints_raw` (`[1/2] ↦ [1]`). -/
theorem apply_boundaries_L1_not_noop :
    (apply_boundaries (samplePlayer (some "GarbageTime") 12 [1/2]) [5] (1/1000)).expected_minutes
      = 0 ∧
    (apply_boundaries (samplePlayer (some "GarbageTime") 12 [1/2]) [5] (1/1000)).stints_raw
      = [1] ∧
    (samplePlayer (some "GarbageTime") 12 [1/2]).expected_minutes = 12 ∧
    (samplePlayer (some "GarbageTime") 12 [1/2]).stints_raw = [1/2] := by
  refine ⟨by decide, by decide, by decide, by decide⟩

/-- Claim C4 (amended): for a player resolving to the all-off single-stint
pattern (`GarbageTime`), `apply_boundaries` ignores `ends` and `min_gap` and
deterministically sets `expected_minutes := 0` and `stints_raw := [1]`; it is a
no-op only when the fields already hold those values. -/
theorem apply_boundaries_garbage_time (p : Player) (arch : Archetype)
    (h : resolveArch p = some arch) (hpat : arch.stint_pattern = ["off"])
    (ends : List ℚ) (minGap : ℚ) :
    apply_boundaries p ends minGap =
      { p with expected_minutes := 0, stints_raw := [1] } := by
  simp only [apply_boundaries, h, hpat]
  norm_num [sanitize_ends, sanitizeGo, onIndices, offIndices, List.range_succ]
  decide

/-- Witness for C4's amended claim at a concrete `GarbageTime` player. -/
theorem apply_boundaries_garbage_time_witness :
    apply_boundaries (samplePlayer (some "GarbageTime") 12 [1/2]) [5] (1/1000) =
      { samplePlayer (some "GarbageTime") 12 [1/2] with
          expected_minutes := 0, stints_raw := [1] } :=
  apply_boundaries_garbage_time _
    ⟨"GarbageTime", "Garbage Time (does not play)", false, ["off"]⟩
    (by decide) rfl [5] (1/1000)

/-! ### Example 2 of the spec (C6) -/

/-- The example-2 player: bench single-stint archetype, 12 expected minutes,
weights `[1, 1, 0]`. -/
def playerEx2 : Player := samplePlayer (some "NonStarterNonCloserOneStint") 12 [1, 1, 0]

/-- One-player team around `playerEx2`. -/
def teamEx2 : Team := ⟨"Home", [playerEx2]⟩

/-- Counterexample to C6: the final step point of `team_oncourt_steps` is
`(48, 0)` — count 0, not count 1 as claimed. -/
theorem example2_final_count_zero :
    team_oncourt_steps teamEx2 = ([0, 36, 36, 48, 48], [0, 0, 1, 1, 0]) ∧
    (team_oncourt_steps teamEx2).2.getLast? = some 0 := by
  refine ⟨by decide, by decide⟩

/-- Claim C6 (amended): for the example-2 player the single on-segment is
`[36, 48]` and `team_oncourt_steps` returns the points
`(0,0), (36,0), (36,1), (48,1)` followed by a final point `(48, 0)` (the `-1`
event at the domain end returns the count to 0). -/
theorem example2_steps :
    compute_segments playerEx2 = [(0, 36, "off"), (36, 48, "on"), (48, 48, "off")] ∧
    team_oncourt_steps teamEx2 = ([0, 36, 36, 48, 48], [0, 0, 1, 1, 0]) := by
  refine ⟨by decide, by decide⟩

/-! ### Points emitted at a shared event time (C7) -/

/-- Tie-break player A: on-court exactly on `[0, 20]`. -/
def playerTieA : Player := samplePlayer (some "NonStarterNonCloserOneStint") 20 [0, 1, 1]

/-- Tie-break player B: on-court exactly on `[20, 48]`. -/
def playerTieB : Player := samplePlayer (some "NonStarterNonCloserOneStint") 28 [1, 1, 0]

/-- Two-player team where A's on-segment ends exactly where B's begins. -/
def teamTie : Team := ⟨"Home", [playerTieA, playerTieB]⟩

/-- Counterexample to C7: at event time 20 the deduplicated output contains
three points, `(20,1), (20,0), (20,1)` — an intermediate running-count value is
emitted, not just the before/after pair. -/
theorem tiebreak_three_points_at_20 :
    ((team_oncourt_steps teamTie).1.filter (fun x => x == 20)).length = 3 ∧
    team_oncourt_steps teamTie = ([0, 0, 20, 20, 20, 48, 48], [0, 1, 1, 0, 1, 1, 0]) := by
  refine ⟨by decide, by decide⟩

/-- Claim C7 (amended): the walk emits, at each distinct time `t`, the count
before the first delta and then the running count after each successive delta
at `t` (consecutive identical pairs removed), so intermediate values appear
when several events share `t`: for `teamTie` the output is
`(0,0), (0,1), (20,1), (20,0), (20,1), (48,1), (48,0)`. -/
theorem tiebreak_steps :
    team_oncourt_steps teamTie = ([0, 0, 20, 20, 20, 48, 48], [0, 1, 1, 0, 1, 1, 0]) := by
  decide

/-! ### The sanitized boundary sequence of `apply_boundaries` (C3) -/

/-- Invariant of the sanitizing loop: given `last ≤ 48 - fuel * minGap`, the
output has length `fuel`, each value is at least `minGap` above its
predecessor, and the `j`-th value is at most `48 - (fuel - 1 - j) * minGap`. -/
theorem sanitizeGo_spec (minGap : ℚ) (ends : List ℚ) :
    ∀ (fuel k : ℕ) (last : ℚ), last ≤ 48 - (fuel : ℚ) * minGap →
      (sanitizeGo minGap ends fuel k last).length = fuel ∧
      List.Chain' (fun a b => a + minGap ≤ b)
        (last :: sanitizeGo minGap ends fuel k last) ∧
      (∀ j, j < fuel → (sanitizeGo minGap ends fuel k last).getD j 0
          ≤ 48 - ((fuel - 1 - j : ℕ) : ℚ) * minGap) := by
  intro fuel
  induction fuel with
  | zero =>
    intro k last _
    refine ⟨rfl, by simp [sanitizeGo], ?_⟩
    intro j hj
    omega
  | succ fuel ih =>
    intro k last h
    have hexp : ((fuel + 1 : ℕ) : ℚ) * minGap = (fuel : ℚ) * minGap + minGap := by
      push_cast
      ring
    have hlast : last + minGap ≤ 48 - (fuel : ℚ) * minGap := by
      rw [hexp] at h
      linarith
    have hvle : max (last + minGap)
        (min (48 - (fuel : ℚ) * minGap) (ends.getD k (last + minGap)))
          ≤ 48 - (fuel : ℚ) * minGap :=
      max_le hlast (min_le_left _ _)
    obtain ⟨ihlen, ihchain, ihbd⟩ := ih (k + 1)
      (max (last + minGap)
        (min (48 - (fuel : ℚ) * minGap) (ends.getD k (last + minGap)))) hvle
    refine ⟨?_, ?_, ?_⟩
    · simp only [sanitizeGo, List.length_cons, ihlen]
    · rw [show sanitizeGo minGap ends (fuel + 1) k last =
          max (last + minGap)
            (min (48 - (fuel : ℚ) * minGap) (ends.getD k (last + minGap)))
            :: sanitizeGo minGap ends fuel (k + 1)
              (max (last + minGap)
                (min (48 - (fuel : ℚ) * minGap) (ends.getD k (last + minGap))))
          from rfl]
      exact List.chain'_cons.mpr ⟨le_max_left _ _, ihchain⟩
    · intro j hj
      cases j with
      | zero =>
        have : (fuel + 1 - 1 - 0 : ℕ) = fuel := by omega
        rw [this]
        exact hvle
      | succ j =>
        have hidx : (fuel + 1 - 1 - (j + 1) : ℕ) = (fuel - 1 - j : ℕ) := by omega
        rw [show (sanitizeGo minGap ends (fuel + 1) k last).getD (j + 1) 0 =
            (sanitizeGo minGap ends fuel (k + 1)
              (max (last + minGap)
                (min (48 - (fuel : ℚ) * minGap) (ends.getD k (last + minGap))))).getD j 0
            from rfl, hidx]
        exact ihbd j (by omega)

/-- Claim C3 (amended): for every player whose archetype resolves with pattern
length `L ≥ 2`, every candidate `ends` list and every `min_gap > 0` such that
`(L - 1) * min_gap ≤ 48`, the sanitized boundary sequence built inside
`apply_boundaries` has length `L - 1`, is strictly increasing with consecutive
gaps at least `min_gap` (its first value at least `min_gap` above 0), and its
`k`-th value is at most `48 - (L - 2 - k) * min_gap`. -/
theorem sanitize_ends_strictly_increasing (p : Player) (arch : Archetype)
    (h : resolveArch p = some arch) (minGap : ℚ) (hg : 0 < minGap)
    (hL : 2 ≤ arch.stint_pattern.length)
    (hb : ((arch.stint_pattern.length : ℚ) - 1) * minGap ≤ 48) (ends : List ℚ) :
    (sanitize_ends minGap arch.stint_pattern.length ends).length
        = arch.stint_pattern.length - 1 ∧
    List.Chain' (fun a b => a + minGap ≤ b)
      (0 :: sanitize_ends minGap arch.stint_pattern.length ends) ∧
    List.Chain' (fun a b => a < b)
      (sanitize_ends minGap arch.stint_pattern.length ends) ∧
    (∀ j, j < arch.stint_pattern.length - 1 →
      (sanitize_ends minGap arch.stint_pattern.length ends).getD j 0
        ≤ 48 - ((arch.stint_pattern.length - 2 - j : ℕ) : ℚ) * minGap) := by
  have h1 : 1 ≤ arch.stint_pattern.length := by omega
  have hc : ((arch.stint_pattern.length - 1 : ℕ) : ℚ)
      = (arch.stint_pattern.length : ℚ) - 1 := by
    push_cast [Nat.cast_sub h1]
    ring
  have h0 : (0 : ℚ) ≤ 48 - ((arch.stint_pattern.length - 1 : ℕ) : ℚ) * minGap := by
    rw [hc]
    linarith
  obtain ⟨hlen, hchain, hbd⟩ := sanitizeGo_spec minGap
    (ends.take (arch.stint_pattern.length - 1)) (arch.stint_pattern.length - 1) 0 0
    (by linarith)
  refine ⟨hlen, hchain, ?_, ?_⟩
  · have htail : List.Chain' (fun a b => a + minGap ≤ b)
        (sanitize_ends minGap arch.stint_pattern.length ends) := hchain.tail
    exact htail.imp (fun a b hab => by linarith)
  · intro j hj
    have hidx : (arch.stint_pattern.length - 1 - 1 - j : ℕ)
        = (arch.stint_pattern.length - 2 - j : ℕ) := by omega
    have := hbd j hj
    rw [hidx] at this
    exact this

/-- Witness for C3's amended claim: pattern length 3, `min_gap = 1/1000`,
candidate ends `[10, 20]`. -/
theorem sanitize_ends_strictly_increasing_witness :
    (sanitize_ends (1/1000) 3 [10, 20]).getD 0 0
      ≤ 48 - ((3 - 2 - 0 : ℕ) : ℚ) * (1/1000) := by
  have h := sanitize_ends_strictly_increasing
    (samplePlayer (some "NonStarterNonCloserOneStint") 12 [])
    ⟨"NonStarterNonCloserOneStint", "Bench, single on-stint, non-closer", false,
      ["off", "on", "off"]⟩
    (by decide) (1/1000) (by norm_num) (by decide) (by norm_num) [10, 20]
  exact h.2.2.2 0 (by decide)

/-- Counterexample to C3 as stated: with `min_gap = 30` (> 0) and pattern
length `L = 3`, the first sanitized value is 30, above the claimed bound
`48 - (L - 2 - 0) * min_gap = 18`. -/
theorem sanitize_ends_bound_violated :
    (resolveArch (samplePlayer (some "NonStarterNonCloserOneStint") 12 [])).map
        (fun a => a.stint_pattern.length) = some 3 ∧
    (0 : ℚ) < 30 ∧
    sanitize_ends 30 3 [10, 20] = [30, 60] ∧
    ¬((sanitize_ends 30 3 [10, 20]).getD 0 0 ≤ 48 - ((3 - 2 - 0 : ℕ) : ℚ) * 30) := by
  refine ⟨by decide, by norm_num, by decide, by decide⟩

/-! ### Tie-break ordering of the sweep line (C8) -/

/-- Sum of the deltas of an event list: the net change of the running count
`curr` over those events. -/
def bal (l : List (ℚ × ℤ)) : ℤ := (l.map Prod.snd).sum

/-- Partial sums of a non-decreasing integer list never exceed
`max 0 (total sum)`: the list decreases before it increases. -/
theorem take_sum_le_max (l : List ℤ) (hs : List.Pairwise (· ≤ ·) l) :
    ∀ n, (l.take n).sum ≤ max 0 l.sum := by
  induction l with
  | nil => intro n; simp
  | cons d rest ih =>
    intro n
    cases n with
    | zero =>
      simpa using le_max_left 0 (d + rest.sum)
    | succ n =>
      rw [List.take_succ_cons, List.sum_cons, List.sum_cons]
      rcases le_or_lt 0 d with hd | hd
      · have hmemnn : ∀ x ∈ rest, 0 ≤ x :=
          fun x hx => le_trans hd (List.rel_of_pairwise_cons hs hx)
        have hts : (rest.take n).sum ≤ rest.sum := by
          conv_rhs => rw [← List.take_append_drop n rest]
          rw [List.sum_append]
          have : 0 ≤ (rest.drop n).sum :=
            List.sum_nonneg (fun x hx => hmemnn x (List.mem_of_mem_drop hx))
          linarith
        exact le_trans (by linarith) (le_max_right 0 (d + rest.sum))
      · have h1 := ih hs.of_cons n
        rcases le_or_lt rest.sum 0 with hr | hr
        · rw [max_eq_left hr] at h1
          have : d + (rest.take n).sum ≤ d := by linarith
          exact le_trans this (le_trans hd.le (le_max_left 0 (d + rest.sum)))
        · rw [max_eq_right hr.le] at h1
          exact le_trans (by linarith) (le_max_right 0 (d + rest.sum))

/-- Claim C8: the sorted event list of `team_oncourt_steps` orders equal-time
events with every `-1` delta before every `+1` delta (lexicographic key
`(time, delta)`), and consequently, across any block `Q` of events sharing one
time `t`, the running count never exceeds both the count before `Q` and the
count after `Q` — no spurious `+1` spike at a simultaneous sub-out/sub-in. -/
theorem no_transient_spike (team : Team) (P Q R : List (ℚ × ℤ)) (t : ℚ)
    (hsplit : sortedEvents team = P ++ Q ++ R)
    (hQ : ∀ q ∈ Q, q.1 = t) :
    List.Pairwise evLEp (sortedEvents team) ∧
    ∀ n, bal (P ++ Q.take n) ≤ max (bal P) (bal (P ++ Q)) := by
  have hsorted : List.Pairwise evLEp (sortedEvents team) :=
    List.sorted_insertionSort evLEp (eventsOf team)
  refine ⟨hsorted, ?_⟩
  intro n
  have hQsub : List.Sublist Q (P ++ Q ++ R) := by
    rw [List.append_assoc]
    exact (List.sublist_append_left Q R).trans (List.sublist_append_right P (Q ++ R))
  have hQp : List.Pairwise evLEp Q := by
    rw [hsplit] at hsorted
    exact hsorted.sublist hQsub
  have hQdel : List.Pairwise (fun a b : ℚ × ℤ => a.2 ≤ b.2) Q := by
    refine hQp.imp_of_mem ?_
    intro a b ha hb hab
    rcases hab with h1 | ⟨_, h2⟩
    · rw [hQ a ha, hQ b hb] at h1
      exact absurd h1 (lt_irrefl t)
    · exact h2
  have hQdeltas : List.Pairwise (· ≤ ·) (Q.map Prod.snd) :=
    List.Pairwise.map Prod.snd (fun _ _ hab => hab) hQdel
  have hkey := take_sum_le_max (Q.map Prod.snd) hQdeltas n
  have hbal1 : bal (P ++ Q.take n) = bal P + ((Q.map Prod.snd).take n).sum := by
    simp [bal, List.map_append, List.sum_append, List.map_take]
  have hbal2 : bal (P ++ Q) = bal P + (Q.map Prod.snd).sum := by
    simp [bal, List.map_append, List.sum_append]
  rw [hbal1, hbal2]
  rcases le_or_lt (Q.map Prod.snd).sum 0 with hr | hr
  · rw [max_eq_left hr] at hkey
    exact le_trans (by linarith) (le_max_left _ _)
  · rw [max_eq_right hr.le] at hkey
    exact le_trans (by linarith) (le_max_right _ _)

/-- Witness for C8 on the tie-break team: split the sorted events at the
`t = 20` block. -/
theorem no_transient_spike_witness :
    bal ([((0:ℚ), (0:ℤ)), (0, 1)] ++ ([((20:ℚ), (-1:ℤ)), (20, 1)].take 1))
      ≤ max (bal [((0:ℚ), (0:ℤ)), (0, 1)])
          (bal ([((0:ℚ), (0:ℤ)), (0, 1)] ++ [((20:ℚ), (-1:ℤ)), (20, 1)])) := by
  have h := no_transient_spike teamTie [(0, 0), (0, 1)] [(20, -1), (20, 1)]
    [(48, -1), (48, 0)] 20 (by decide) (by decide)
  exact h.2 1

/-! ### Nonnegativity of the sweep-line running count (towards C5) -/

/-- `-1` events up to and including time `t`. -/
def isDel (t : ℚ) (x : ℚ × ℤ) : Bool := decide (x.2 = -1 ∧ x.1 ≤ t)

/-- `+1` events strictly before time `t`. -/
def isIns (t : ℚ) (x : ℚ × ℤ) : Bool := decide (x.2 = 1 ∧ x.1 < t)

/-- `-1` events. -/
def isNeg (x : ℚ × ℤ) : Bool := decide (x.2 = -1)

/-- `+1` events. -/
def isPos (x : ℚ × ℤ) : Bool := decide (x.2 = 1)

theorem countP_flatMap_le {α β : Type} (L : List α) (f : α → List β) (p q : β → Bool)
    (h : ∀ x ∈ L, List.countP p (f x) ≤ List.countP q (f x)) :
    List.countP p (L.flatMap f) ≤ List.countP q (L.flatMap f) := by
  induction L with
  | nil => simp
  | cons a L ih =>
    rw [List.flatMap_cons, List.countP_append, List.countP_append]
    exact Nat.add_le_add (h a (by simp))
      (ih (fun x hx => h x (List.mem_cons_of_mem _ hx)))

/-- Each qualifying segment contributes one `+1` strictly before its `-1`:
counting `-1` events up to `t` is dominated by counting `+1` events before
`t`, per segment. -/
theorem segEvents_pairing (t : ℚ) (seg : ℚ × ℚ × String)
    (hb : 0 ≤ seg.1 ∧ seg.1 ≤ seg.2.1 ∧ seg.2.1 ≤ 48) :
    List.countP (isDel t) (segEvents seg) ≤ List.countP (isIns t) (segEvents seg) := by
  unfold segEvents
  split
  · next hcond =>
    have hs1 : max 0 (min 48 seg.1) = seg.1 := by
      rw [min_eq_right (le_trans hb.2.1 hb.2.2), max_eq_right hb.1]
    have hs2 : max 0 (min 48 seg.2.1) = seg.2.1 := by
      rw [min_eq_right hb.2.2, max_eq_right (le_trans hb.1 hb.2.1)]
    rw [hs1, hs2]
    by_cases hd : seg.2.1 ≤ t
    · have hi : seg.1 < t := lt_of_lt_of_le hcond.2 hd
      simp [List.countP_cons, isDel, isIns, hd, hi]
    · simp [List.countP_cons, isDel, isIns, hd]
  · simp

/-- The whole event list of a team satisfies the pairing inequality. -/
theorem events_pairing (team : Team) (t : ℚ) :
    List.countP (isDel t) (eventsOf team) ≤ List.countP (isIns t) (eventsOf team) := by
  unfold eventsOf
  rw [List.countP_append, List.countP_append]
  have hmark : List.countP (isDel t) [((0:ℚ), (0:ℤ)), (48, 0)] = 0 := by
    simp [isDel]
  have hmark2 : List.countP (isIns t) [((0:ℚ), (0:ℤ)), (48, 0)] = 0 := by
    simp [isIns]
  rw [hmark, hmark2]
  refine Nat.add_le_add ?_ (le_refl 0)
  refine countP_flatMap_le _ _ _ _ ?_
  intro p _
  refine countP_flatMap_le _ _ _ _ ?_
  intro seg hseg
  exact segEvents_pairing t seg (compute_segments_bounds_all p seg hseg)

/-- Event times stay in `[0, 48]` and deltas in `{-1, 0, 1}`. -/
theorem eventsOf_shape (team : Team) :
    ∀ x ∈ eventsOf team, (0 ≤ x.1 ∧ x.1 ≤ 48) ∧ (x.2 = -1 ∨ x.2 = 0 ∨ x.2 = 1) := by
  intro x hx
  unfold eventsOf at hx
  rcases List.mem_append.mp hx with hx | hx
  · obtain ⟨p, _, hx⟩ := List.mem_flatMap.mp hx
    obtain ⟨seg, _, hx⟩ := List.mem_flatMap.mp hx
    unfold segEvents at hx
    split at hx
    · rcases List.mem_cons.mp hx with hx | hx
      · subst hx
        refine ⟨⟨le_max_left _ _, max_le (by norm_num) (min_le_left _ _)⟩, ?_⟩
        right; right; rfl
      · rcases List.mem_cons.mp hx with hx | hx
        · subst hx
          refine ⟨⟨le_max_left _ _, max_le (by norm_num) (min_le_left _ _)⟩, ?_⟩
          left; rfl
        · simp at hx
    · simp at hx
  · rcases List.mem_cons.mp hx with hx | hx
    · subst hx
      exact ⟨⟨le_refl 0, by norm_num⟩, Or.inr (Or.inl rfl)⟩
    · rcases List.mem_cons.mp hx with hx | hx
      · subst hx
        exact ⟨⟨by norm_num, le_refl 48⟩, Or.inr (Or.inl rfl)⟩
      · simp at hx

/-- The delta sum of a list is `(#+1 events) - (#-1 events)` when all deltas
lie in `{-1, 0, 1}`. -/
theorem bal_eq_counts (l : List (ℚ × ℤ))
    (hd : ∀ x ∈ l, x.2 = -1 ∨ x.2 = 0 ∨ x.2 = 1) :
    bal l = (List.countP isPos l : ℤ) - (List.countP isNeg l : ℤ) := by
  induction l with
  | nil => simp [bal]
  | cons a l ih =>
    have ha := hd a (by simp)
    have hrest := ih (fun x hx => hd x (List.mem_cons_of_mem _ hx))
    have hbal : bal (a :: l) = a.2 + bal l := by simp [bal]
    rw [hbal, hrest, List.countP_cons, List.countP_cons]
    rcases ha with ha | ha | ha <;>
      simp [isPos, isNeg, ha] <;> push_cast <;> ring

/-- In a sorted event list satisfying the pairing inequality, every prefix has
at least as many `+1` as `-1` events. -/
theorem sorted_prefix_count (l : List (ℚ × ℤ))
    (hs : List.Pairwise evLEp l)
    (hH : ∀ t : ℚ, List.countP (isDel t) l ≤ List.countP (isIns t) l)
    (hb : ∀ x ∈ l, x.1 ≤ 48) :
    ∀ p q, l = p ++ q → List.countP isNeg p ≤ List.countP isPos p := by
  intro p q hl
  cases q with
  | nil =>
    rw [List.append_nil] at hl
    rw [← hl]
    calc List.countP isNeg l = List.countP (isDel 49) l := by
          refine List.countP_congr ?_
          intro x hx
          simp only [isNeg, isDel, decide_eq_true_eq]
          constructor
          · intro h; exact ⟨h, by linarith [hb x hx]⟩
          · intro h; exact h.1
      _ ≤ List.countP (isIns 49) l := hH 49
      _ ≤ List.countP isPos l := by
          refine List.countP_mono_left ?_
          intro x _
          simp only [isIns, isPos, decide_eq_true_eq]
          intro h; exact h.1
  | cons b q' =>
    subst hl
    have hPb : ∀ x ∈ p, evLEp x b := by
      intro x hx
      have := (List.pairwise_append.mp hs).2.2
      exact this x hx b (by simp)
    have hQ'b : ∀ y ∈ q', evLEp b y := by
      intro y hy
      have := (List.pairwise_append.mp hs).2.1
      exact List.rel_of_pairwise_cons this hy
    calc List.countP isNeg p ≤ List.countP (isDel b.1) p := by
          refine List.countP_mono_left ?_
          intro x hx
          simp only [isNeg, isDel, decide_eq_true_eq]
          intro h
          refine ⟨h, ?_⟩
          rcases hPb x hx with h1 | ⟨h1, _⟩
          · exact h1.le
          · exact h1.le
      _ ≤ List.countP (isDel b.1) (p ++ b :: q') := by
          rw [List.countP_append]
          exact Nat.le_add_right _ _
      _ ≤ List.countP (isIns b.1) (p ++ b :: q') := hH b.1
      _ = List.countP (isIns b.1) p + List.countP (isIns b.1) (b :: q') := by
          rw [List.countP_append]
      _ = List.countP (isIns b.1) p := by
          have hz : List.countP (isIns b.1) (b :: q') = 0 := by
            rw [List.countP_eq_zero]
            intro a ha
            rcases List.mem_cons.mp ha with ha | ha
            · subst ha
              simp only [isIns, decide_eq_true_eq]
              rintro ⟨_, hlt⟩
              exact lt_irrefl _ hlt
            · simp only [isIns, decide_eq_true_eq]
              rintro ⟨_, hlt⟩
              rcases hQ'b a ha with h1 | ⟨h1, _⟩
              · exact absurd (h1.trans hlt) (lt_irrefl _)
              · rw [h1] at hlt; exact absurd hlt (lt_irrefl _)
          rw [hz, Nat.add_zero]
      _ ≤ List.countP isPos p := by
          refine List.countP_mono_left ?_
          intro x _
          simp only [isIns, isPos, decide_eq_true_eq]
          intro h; exact h.1

/-- Every prefix of the sorted event list of a team has nonnegative delta
sum. -/
theorem sortedEvents_prefix_nonneg (team : Team) :
    ∀ n, 0 ≤ bal ((sortedEvents team).take n) := by
  intro n
  have hperm : List.Perm (sortedEvents team) (eventsOf team) :=
    List.perm_insertionSort evLEp (eventsOf team)
  have hs : List.Pairwise evLEp (sortedEvents team) :=
    List.sorted_insertionSort evLEp (eventsOf team)
  have hH : ∀ t : ℚ, List.countP (isDel t) (sortedEvents team)
      ≤ List.countP (isIns t) (sortedEvents team) := by
    intro t
    rw [hperm.countP_eq, hperm.countP_eq]
    exact events_pairing team t
  have hb : ∀ x ∈ sortedEvents team, x.1 ≤ 48 := by
    intro x hx
    exact ((eventsOf_shape team x (hperm.mem_iff.mp hx)).1).2
  have hcount := sorted_prefix_count (sortedEvents team) hs hH hb
    ((sortedEvents team).take n) ((sortedEvents team).drop n)
    (List.take_append_drop n (sortedEvents team)).symm
  have hd : ∀ x ∈ (sortedEvents team).take n, x.2 = -1 ∨ x.2 = 0 ∨ x.2 = 1 := by
    intro x hx
    exact (eventsOf_shape team x (hperm.mem_iff.mp (List.mem_of_mem_take hx))).2
  rw [bal_eq_counts _ hd]
  have := Int.ofNat_le.mpr hcount
  omega

theorem bal_cons (x : ℚ × ℤ) (l : List (ℚ × ℤ)) : bal (x :: l) = x.2 + bal l := by
  simp [bal]

theorem chain_le_append_singleton {xs : List ℚ} {t : ℚ}
    (hc : List.Chain' (· ≤ ·) xs) (h : ∀ x ∈ xs, x ≤ t) :
    List.Chain' (· ≤ ·) (xs ++ [t]) := by
  rw [List.chain'_append]
  refine ⟨hc, List.chain'_singleton t, ?_⟩
  intro x hx y hy
  simp only [List.head?_cons, Option.mem_def, Option.some_inj] at hy
  subst hy
  exact h x (List.mem_of_getLast?_eq_some hx)

/-- Main invariant of the emission loop: all emitted counts are prefix sums of
the event deltas (hence nonnegative under `hpre`), the emitted times are
non-decreasing and within `[0, 48]`, `xs` and `ys` stay in lockstep, and the
head of the output is the head of `xs` (or `last_t` when `xs` starts empty). -/
theorem stepLoop_invariant :
    ∀ (events : List (ℚ × ℤ)) (xs : List ℚ) (ys : List ℤ) (curr : ℤ) (last_t : ℚ),
    (∀ y ∈ ys, 0 ≤ y) →
    (∀ n, 0 ≤ curr + bal (events.take n)) →
    List.Chain' (· ≤ ·) xs →
    (∀ x ∈ xs, 0 ≤ x ∧ x ≤ 48) →
    (∀ x ∈ xs, x ≤ last_t) →
    (0 ≤ last_t ∧ last_t ≤ 48) →
    (∀ e ∈ events, last_t ≤ e.1 ∧ 0 ≤ e.1 ∧ e.1 ≤ 48) →
    List.Pairwise (fun a b : ℚ × ℤ => a.1 ≤ b.1) events →
    xs.length = ys.length →
    (∀ y ∈ (stepLoop events xs ys curr last_t).2, 0 ≤ y) ∧
    List.Chain' (· ≤ ·) (stepLoop events xs ys curr last_t).1 ∧
    (∀ x ∈ (stepLoop events xs ys curr last_t).1, 0 ≤ x ∧ x ≤ 48) ∧
    (stepLoop events xs ys curr last_t).1.length
      = (stepLoop events xs ys curr last_t).2.length ∧
    (xs ≠ [] → (stepLoop events xs ys curr last_t).1.head? = xs.head?) ∧
    (xs = [] → events ≠ [] →
      (stepLoop events xs ys curr last_t).1.head? = some last_t) := by
  intro events
  induction events with
  | nil =>
    intro xs ys curr last_t h1 _ h3 h4 _ _ _ _ h9
    exact ⟨h1, h3, h4, h9, fun _ => rfl, fun _ h => absurd rfl h⟩
  | cons e rest ih =>
    obtain ⟨t, d⟩ := e
    intro xs ys curr last_t h1 h2 h3 h4 h5 h6 h7 h8 h9
    obtain ⟨hlt, ht0, ht48⟩ := h7 (t, d) (by simp)
    have hstep : stepLoop ((t, d) :: rest) xs ys curr last_t =
        stepLoop rest
          ((if t ≠ last_t then (if xs = [] then xs ++ [last_t] else xs) ++ [t]
            else (if xs = [] then xs ++ [last_t] else xs)) ++ [t])
          ((if t ≠ last_t then (if xs = [] then ys ++ [curr] else ys) ++ [curr]
            else (if xs = [] then ys ++ [curr] else ys)) ++ [curr + d])
          (curr + d)
          (if t ≠ last_t then t else last_t) := rfl
    set xs1 := if xs = [] then xs ++ [last_t] else xs with hxs1
    set ys1 := if xs = [] then ys ++ [curr] else ys with hys1
    set xs2 := if t ≠ last_t then xs1 ++ [t] else xs1 with hxs2
    set ys2 := if t ≠ last_t then ys1 ++ [curr] else ys1 with hys2
    set lt2 := if t ≠ last_t then t else last_t with hlt2
    have hlt2t : lt2 = t := by
      by_cases h : t = last_t
      · simp [hlt2, h]
      · simp [hlt2, h]
    have hcurr : 0 ≤ curr := by
      have := h2 0
      simpa [bal] using this
    have hcurrd : 0 ≤ curr + d := by
      have := h2 1
      simpa [bal] using this
    -- facts about xs1 / ys1
    have hxs1mem : ∀ x ∈ xs1, x ∈ xs ∨ x = last_t := by
      intro x hx
      by_cases he : xs = []
      · rw [hxs1, if_pos he] at hx
        rcases List.mem_append.mp hx with hx | hx
        · exact Or.inl hx
        · simp at hx; exact Or.inr hx
      · rw [hxs1, if_neg he] at hx
        exact Or.inl hx
    have hxs1b : ∀ x ∈ xs1, 0 ≤ x ∧ x ≤ 48 := by
      intro x hx
      rcases hxs1mem x hx with hx | hx
      · exact h4 x hx
      · subst hx; exact h6
    have hxs1le : ∀ x ∈ xs1, x ≤ last_t := by
      intro x hx
      rcases hxs1mem x hx with hx | hx
      · exact h5 x hx
      · subst hx; exact le_refl _
    have hxs1c : List.Chain' (· ≤ ·) xs1 := by
      by_cases he : xs = []
      · rw [hxs1, if_pos he]
        exact chain_le_append_singleton h3 h5
      · rw [hxs1, if_neg he]
        exact h3
    have hys1mem : ∀ y ∈ ys1, 0 ≤ y := by
      intro y hy
      by_cases he : xs = []
      · rw [hys1, if_pos he] at hy
        rcases List.mem_append.mp hy with hy | hy
        · exact h1 y hy
        · simp at hy; subst hy; exact hcurr
      · rw [hys1, if_neg he] at hy
        exact h1 y hy
    have hlen1 : xs1.length = ys1.length := by
      by_cases he : xs = []
      · rw [hxs1, hys1, if_pos he, if_pos he]
        simp [h9]
      · rw [hxs1, hys1, if_neg he, if_neg he]
        exact h9
    -- facts about xs2 / ys2
    have hxs2mem : ∀ x ∈ xs2, x ∈ xs1 ∨ x = t := by
      intro x hx
      by_cases he : t ≠ last_t
      · rw [hxs2, if_pos he] at hx
        rcases List.mem_append.mp hx with hx | hx
        · exact Or.inl hx
        · simp at hx; exact Or.inr hx
      · rw [hxs2, if_neg he] at hx
        exact Or.inl hx
    have hxs2b : ∀ x ∈ xs2, 0 ≤ x ∧ x ≤ 48 := by
      intro x hx
      rcases hxs2mem x hx with hx | hx
      · exact hxs1b x hx
      · subst hx; exact ⟨ht0, ht48⟩
    have hxs2le : ∀ x ∈ xs2, x ≤ t := by
      intro x hx
      rcases hxs2mem x hx with hx | hx
      · exact le_trans (hxs1le x hx) hlt
      · subst hx; exact le_refl _
    have hxs2c : List.Chain' (· ≤ ·) xs2 := by
      by_cases he : t ≠ last_t
      · rw [hxs2, if_pos he]
        exact chain_le_append_singleton hxs1c (fun x hx => le_trans (hxs1le x hx) hlt)
      · rw [hxs2, if_neg he]
        exact hxs1c
    have hys2mem : ∀ y ∈ ys2, 0 ≤ y := by
      intro y hy
      by_cases he : t ≠ last_t
      · rw [hys2, if_pos he] at hy
        rcases List.mem_append.mp hy with hy | hy
        · exact hys1mem y hy
        · simp at hy; subst hy; exact hcurr
      · rw [hys2, if_neg he] at hy
        exact hys1mem y hy
    have hlen2 : xs2.length = ys2.length := by
      by_cases he : t ≠ last_t
      · rw [hxs2, hys2, if_pos he, if_pos he]
        simp [hlen1]
      · rw [hxs2, hys2, if_neg he, if_neg he]
        exact hlen1
    -- apply the induction hypothesis to the updated state
    have hmain := ih (xs2 ++ [t]) (ys2 ++ [curr + d]) (curr + d) lt2
      (by
        intro y hy
        rcases List.mem_append.mp hy with hy | hy
        · exact hys2mem y hy
        · simp at hy; subst hy; exact hcurrd)
      (by
        intro n
        have := h2 (n + 1)
        rw [List.take_succ_cons, bal_cons] at this
        have harr : curr + (d + bal (rest.take n)) = curr + d + bal (rest.take n) := by
          ring
        rw [harr] at this
        exact this)
      (chain_le_append_singleton hxs2c hxs2le)
      (by
        intro x hx
        rcases List.mem_append.mp hx with hx | hx
        · exact hxs2b x hx
        · simp at hx; subst hx; exact ⟨ht0, ht48⟩)
      (by
        intro x hx
        rw [hlt2t]
        rcases List.mem_append.mp hx with hx | hx
        · exact hxs2le x hx
        · simp at hx; subst hx; exact le_refl _)
      (by rw [hlt2t]; exact ⟨ht0, ht48⟩)
      (by
        intro e he
        refine ⟨?_, (h7 e (List.mem_cons_of_mem _ he)).2⟩
        rw [hlt2t]
        exact List.rel_of_pairwise_cons h8 he)
      h8.of_cons
      (by simp [hlen2])
    rw [hstep]
    refine ⟨hmain.1, hmain.2.1, hmain.2.2.1, hmain.2.2.2.1, ?_, ?_⟩
    · -- xs ≠ [] : head is preserved through the appends
      intro hne
      have hx1 : xs1.head? = xs.head? := by
        rw [hxs1, if_neg hne]
      have hne1 : xs1 ≠ [] := by
        rw [hxs1, if_neg hne]; exact hne
      have hx2 : xs2.head? = xs1.head? := by
        by_cases he : t ≠ last_t
        · rw [hxs2, if_pos he, List.head?_append]
          cases hx : xs1.head? with
          | none => exact absurd (List.head?_eq_none_iff.mp hx) hne1
          | some a => simp
        · rw [hxs2, if_neg he]
      have hne2 : xs2 ≠ [] := by
        intro hc
        have : xs2.head? = none := by rw [hc]; rfl
        rw [hx2, hx1] at this
        exact hne (List.head?_eq_none_iff.mp this)
      have hx3 : (xs2 ++ [t]).head? = xs2.head? := by
        rw [List.head?_append]
        cases hx : xs2.head? with
        | none => exact absurd (List.head?_eq_none_iff.mp hx) hne2
        | some a => simp
      rw [hmain.2.2.2.2.1 (by simp), hx3, hx2, hx1]
    · -- xs = [] : head is last_t
      intro he _
      have hx1 : xs1 = [last_t] := by
        rw [hxs1, if_pos he, he, List.nil_append]
      have hx2 : xs2.head? = some last_t := by
        by_cases hte : t ≠ last_t
        · rw [hxs2, if_pos hte, hx1]
          rfl
        · rw [hxs2, if_neg hte, hx1]
          rfl
      have hne2 : xs2 ≠ [] := by
        intro hc
        rw [hc] at hx2
        simp at hx2
      have hx3 : (xs2 ++ [t]).head? = some last_t := by
        rw [List.head?_append, hx2]
        rfl
      rw [hmain.2.2.2.2.1 (by simp), hx3]

theorem dedupGo_sublist : ∀ (l : List (ℚ × ℤ)) (lastX : ℚ) (lastY : ℤ),
    List.Sublist (dedupGo lastX lastY l) l := by
  intro l
  induction l with
  | nil => intro _ _; simp [dedupGo]
  | cons a rest ih =>
    intro lastX lastY
    obtain ⟨x, y⟩ := a
    rw [dedupGo]
    split
    · exact (ih lastX lastY).cons _
    · exact (ih x y).cons₂ _

theorem fix48_shape (p0 : ℚ × ℤ) (rest : List (ℚ × ℤ)) :
    fix48 (p0 :: rest) = p0 :: rest ∨
    ∃ y, (∃ w ∈ p0 :: rest, w.2 = y) ∧
      fix48 (p0 :: rest) = (p0 :: rest) ++ [(48, y)] := by
  unfold fix48
  cases hL : (p0 :: rest).getLast? with
  | none => simp at hL
  | some xy =>
    obtain ⟨x, y⟩ := xy
    by_cases hx : x ≠ 48
    · right
      refine ⟨y, ⟨(x, y), List.mem_of_getLast?_eq_some hL, rfl⟩, ?_⟩
      simp [hx]
    · left
      simp [hx]

theorem fix48_getLast_eq (pts : List (ℚ × ℤ)) (h : pts ≠ []) :
    ((fix48 pts).getLast?).map Prod.fst = some 48 := by
  unfold fix48
  cases hL : pts.getLast? with
  | none =>
    rw [List.getLast?_eq_none_iff] at hL
    exact absurd hL h
  | some xy =>
    obtain ⟨x, y⟩ := xy
    by_cases hx : x ≠ 48
    · simp [hx, List.getLast?_concat]
    · push_neg at hx
      simp [hx, hL]

/-- Claim C5: for every team, `team_oncourt_steps` returns `(times, counts)`
with every count nonnegative, times non-decreasing and within `[0, 48]`,
first time 0 and last time exactly 48. -/
theorem team_oncourt_steps_invariants (team : Team) :
    (∀ y ∈ (team_oncourt_steps team).2, 0 ≤ y) ∧
    List.Chain' (· ≤ ·) (team_oncourt_steps team).1 ∧
    (∀ x ∈ (team_oncourt_steps team).1, 0 ≤ x ∧ x ≤ 48) ∧
    (team_oncourt_steps team).1.head? = some 0 ∧
    (team_oncourt_steps team).1.getLast? = some 48 := by
  have hperm : List.Perm (sortedEvents team) (eventsOf team) :=
    List.perm_insertionSort evLEp (eventsOf team)
  have hs : List.Pairwise evLEp (sortedEvents team) :=
    List.sorted_insertionSort evLEp (eventsOf team)
  have hshape : ∀ x ∈ sortedEvents team, (0 ≤ x.1 ∧ x.1 ≤ 48)
      ∧ (x.2 = -1 ∨ x.2 = 0 ∨ x.2 = 1) :=
    fun x hx => eventsOf_shape team x (hperm.mem_iff.mp hx)
  have hpair : List.Pairwise (fun a b : ℚ × ℤ => a.1 ≤ b.1) (sortedEvents team) := by
    refine hs.imp ?_
    intro a b hab
    rcases hab with h1 | ⟨h1, _⟩
    · exact h1.le
    · exact h1.le
  have hpre : ∀ n, 0 ≤ (0:ℤ) + bal ((sortedEvents team).take n) := by
    intro n
    simpa using sortedEvents_prefix_nonneg team n
  have hmem0 : ((0:ℚ), (0:ℤ)) ∈ sortedEvents team := by
    refine hperm.mem_iff.mpr ?_
    unfold eventsOf
    simp
  obtain ⟨e0, rest0, hsorted⟩ : ∃ e0 rest0, sortedEvents team = e0 :: rest0 := by
    cases hsx : sortedEvents team with
    | nil => rw [hsx] at hmem0; simp at hmem0
    | cons a l => exact ⟨a, l, rfl⟩
  have hinv := stepLoop_invariant (sortedEvents team) [] [] 0 0
    (by simp) hpre (by simp) (by simp) (by simp) ⟨le_refl 0, by norm_num⟩
    (fun e he => ⟨(hshape e he).1.1, (hshape e he).1.1, (hshape e he).1.2⟩)
    hpair rfl
  have hhead : (stepLoop (sortedEvents team) [] [] 0 0).1.head? = some 0 :=
    hinv.2.2.2.2.2 rfl (by rw [hsorted]; simp)
  obtain ⟨x0, xrest, hX⟩ : ∃ a l, (stepLoop (sortedEvents team) [] [] 0 0).1 = a :: l := by
    cases hsx : (stepLoop (sortedEvents team) [] [] 0 0).1 with
    | nil => rw [hsx] at hhead; simp at hhead
    | cons a l => exact ⟨a, l, rfl⟩
  have hx0 : x0 = 0 := by
    rw [hX] at hhead
    simpa using hhead
  obtain ⟨y0, yrest, hY⟩ : ∃ a l, (stepLoop (sortedEvents team) [] [] 0 0).2 = a :: l := by
    have hlen := hinv.2.2.2.1
    cases hsy : (stepLoop (sortedEvents team) [] [] 0 0).2 with
    | nil =>
      rw [hX, hsy] at hlen
      simp at hlen
    | cons a l => exact ⟨a, l, rfl⟩
  have hlenr : xrest.length = yrest.length := by
    have hlen := hinv.2.2.2.1
    rw [hX, hY] at hlen
    simpa using hlen
  have hteam : team_oncourt_steps team =
      ((fix48 ((x0, y0) :: dedupGo x0 y0 (xrest.zip yrest))).map Prod.fst,
       (fix48 ((x0, y0) :: dedupGo x0 y0 (xrest.zip yrest))).map Prod.snd) := by
    simp only [team_oncourt_steps]
    rw [hX, hY]
  have hteam1 : (team_oncourt_steps team).1 =
      (fix48 ((x0, y0) :: dedupGo x0 y0 (xrest.zip yrest))).map Prod.fst := by
    rw [hteam]
  have hteam2 : (team_oncourt_steps team).2 =
      (fix48 ((x0, y0) :: dedupGo x0 y0 (xrest.zip yrest))).map Prod.snd := by
    rw [hteam]
  -- elements of the point list before the 48-fixup
  have hzip_sub : List.Sublist ((x0, y0) :: dedupGo x0 y0 (xrest.zip yrest))
      ((x0, y0) :: xrest.zip yrest) :=
    (dedupGo_sublist _ x0 y0).cons₂ _
  have hyall : ∀ y ∈ (stepLoop (sortedEvents team) [] [] 0 0).2, 0 ≤ y := hinv.1
  have hxall : ∀ x ∈ (stepLoop (sortedEvents team) [] [] 0 0).1, 0 ≤ x ∧ x ≤ 48 :=
    hinv.2.2.1
  have hpts_mem : ∀ w ∈ (x0, y0) :: dedupGo x0 y0 (xrest.zip yrest),
      (0 ≤ w.1 ∧ w.1 ≤ 48) ∧ 0 ≤ w.2 := by
    intro w hw
    have hw' := hzip_sub.subset hw
    rcases List.mem_cons.mp hw' with hw' | hw'
    · subst hw'
      refine ⟨hxall x0 (by rw [hX]; simp), hyall y0 (by rw [hY]; simp)⟩
    · obtain ⟨hwx, hwy⟩ := List.of_mem_zip hw'
      refine ⟨hxall w.1 (by rw [hX]; simp [hwx]), hyall w.2 (by rw [hY]; simp [hwy])⟩
  have hchainX : List.Chain' (· ≤ ·) (x0 :: xrest) := by
    have := hinv.2.1
    rwa [hX] at this
  have hmapfst : ((x0, y0) :: xrest.zip yrest).map Prod.fst = x0 :: (xrest.zip yrest).map Prod.fst := by
    simp
  have hzipfst_sub : List.Sublist ((xrest.zip yrest).map Prod.fst) xrest := by
    rw [List.map_fst_zip xrest yrest (le_of_eq hlenr)]
  have hchain_pts : List.Chain' (· ≤ ·)
      (((x0, y0) :: dedupGo x0 y0 (xrest.zip yrest)).map Prod.fst) := by
    refine List.Chain'.sublist hchainX ?_
    have h1 : List.Sublist (((x0, y0) :: dedupGo x0 y0 (xrest.zip yrest)).map Prod.fst)
        (((x0, y0) :: xrest.zip yrest).map Prod.fst) := hzip_sub.map Prod.fst
    rw [hmapfst] at h1
    exact h1.trans ((hzipfst_sub.cons₂ x0))
  -- split on the 48-fixup
  rcases fix48_shape (x0, y0) (dedupGo x0 y0 (xrest.zip yrest)) with hfix | ⟨yl, ⟨w, hwmem, hwy⟩, hfix⟩
  · rw [hteam1, hteam2, hfix]
    refine ⟨?_, hchain_pts, ?_, ?_, ?_⟩
    · intro y hy
      obtain ⟨w, hw, hwz⟩ := List.mem_map.mp hy
      rw [← hwz]
      exact (hpts_mem w hw).2
    · intro x hx
      obtain ⟨w, hw, hwz⟩ := List.mem_map.mp hx
      rw [← hwz]
      exact (hpts_mem w hw).1
    · simp [hx0]
    · have := fix48_getLast_eq ((x0, y0) :: dedupGo x0 y0 (xrest.zip yrest)) (by simp)
      rw [hfix] at this
      rw [List.getLast?_map]
      exact this
  · rw [hteam1, hteam2, hfix]
    have hylnn : 0 ≤ yl := by
      rw [← hwy]
      exact (hpts_mem w hwmem).2
    refine ⟨?_, ?_, ?_, ?_, ?_⟩
    · intro y hy
      rw [List.map_append] at hy
      rcases List.mem_append.mp hy with hy | hy
      · obtain ⟨w', hw', hwz⟩ := List.mem_map.mp hy
        rw [← hwz]
        exact (hpts_mem w' hw').2
      · simp at hy
        rw [hy]
        exact hylnn
    · rw [List.map_append]
      refine chain_le_append_singleton hchain_pts ?_
      intro x hx
      obtain ⟨w', hw', hwz⟩ := List.mem_map.mp hx
      rw [← hwz]
      exact (hpts_mem w' hw').1.2
    · intro x hx
      rw [List.map_append] at hx
      rcases List.mem_append.mp hx with hx | hx
      · obtain ⟨w', hw', hwz⟩ := List.mem_map.mp hx
        rw [← hwz]
        exact (hpts_mem w' hw').1
      · simp at hx
        rw [hx]
        norm_num
    · rw [List.map_append]
      simp [hx0]
    · rw [List.getLast?_map, List.getLast?_concat]
      rfl

/-! ### Round-trip of boundary editing (towards C2) -/

theorem mem_onIndices {pattern : List String} {i : ℕ} :
    i ∈ onIndices pattern ↔ i < pattern.length ∧ pattern.getD i "" = "on" := by
  simp [onIndices, List.mem_filter]

theorem mem_offIndices {pattern : List String} {i : ℕ} :
    i ∈ offIndices pattern ↔ i < pattern.length ∧ ¬(pattern.getD i "" = "on") := by
  simp [offIndices, List.mem_filter]

/-- Starts of a contiguous segment list: the head start followed by the
non-final ends. -/
theorem starts_eq_ends : ∀ (s0 : ℚ × ℚ × String) (rest : List (ℚ × ℚ × String)),
    List.Chain' Contig (s0 :: rest) →
    (s0 :: rest).map (fun s => s.1)
      = s0.1 :: ((s0 :: rest).dropLast).map (fun s => s.2.1) := by
  intro s0 rest
  induction rest generalizing s0 with
  | nil => intro _; simp
  | cons s1 rest' ih =>
    intro hchain
    have h01 : s1.1 = s0.2.1 := (List.chain'_cons.mp hchain).1
    have htail := ih s1 (List.chain'_cons.mp hchain).2
    rw [List.map_cons, htail, List.dropLast_cons₂, List.map_cons, h01]

/-- Telescoping sum of durations over a contiguous segment list. -/
theorem telescope_sum : ∀ (rest : List (ℚ × ℚ × String)) (s0 : ℚ × ℚ × String),
    List.Chain' Contig (s0 :: rest) → ∀ sl, (s0 :: rest).getLast? = some sl →
    ((s0 :: rest).map (fun s => s.2.1 - s.1)).sum = sl.2.1 - s0.1 := by
  intro rest
  induction rest with
  | nil =>
    intro s0 _ sl hsl
    simp at hsl
    subst hsl
    simp
  | cons s1 rest' ih =>
    intro s0 hchain sl hsl
    have h01 : s1.1 = s0.2.1 := (List.chain'_cons.mp hchain).1
    rw [List.getLast?_cons_cons] at hsl
    have htail := ih s1 (List.chain'_cons.mp hchain).2 sl hsl
    rw [List.map_cons, List.sum_cons, htail, ← h01]
    ring

/-- Index sums over the on/off partition of `range L` add to the full sum. -/
theorem sum_getD_filter_partition (L : ℕ) (pred : ℕ → Bool) (f : ℕ → ℚ) :
    (((List.range L).filter pred).map f).sum
      + (((List.range L).filter (fun i => !pred i)).map f).sum
      = ((List.range L).map f).sum := by
  induction L with
  | zero => simp
  | succ L ih =>
    rw [List.range_succ, List.filter_append, List.filter_append,
      List.map_append, List.map_append, List.map_append,
      List.sum_append, List.sum_append, List.sum_append]
    by_cases hp : pred L
    · simp only [List.filter_singleton, hp]
      simp only [Bool.not_true, List.map_cons, List.map_nil]
      rw [← ih]
      simp
      ring
    · simp only [List.filter_singleton, hp]
      rw [Bool.not_eq_true] at hp
      simp only [hp, Bool.not_false, List.map_cons, List.map_nil]
      rw [← ih]
      simp
      ring

/-- Summing `getD` over `range l.length` gives the list sum. -/
theorem sum_range_getD (l : List ℚ) :
    ((List.range l.length).map (fun i => l.getD i 0)).sum = l.sum := by
  induction l with
  | nil => simp
  | cons a l ih =>
    rw [List.length_cons, List.range_succ_eq_map, List.map_cons, List.map_map,
      List.sum_cons]
    have : ((List.range l.length).map ((fun i => (a :: l).getD i 0) ∘ Nat.succ))
        = (List.range l.length).map (fun i => l.getD i 0) := by
      refine List.map_congr_left ?_
      intro i _
      rfl
    rw [this, ih]
    rfl

/-- Dividing a mapped sum by a constant. -/
theorem sum_map_div (l : List ℕ) (f : ℕ → ℚ) (c : ℚ) :
    (l.map (fun i => f i / c)).sum = (l.map f).sum / c := by
  induction l with
  | nil => simp
  | cons a l ih =>
    rw [List.map_cons, List.map_cons, List.sum_cons, List.sum_cons, ih, add_div]

/-- A zero sum of nonnegative terms forces every term to zero. -/
theorem sum_map_nonneg_zero (l : List ℕ) (f : ℕ → ℚ)
    (hnn : ∀ x ∈ l, 0 ≤ f x) (hz : (l.map f).sum = 0) :
    ∀ x ∈ l, f x = 0 := by
  induction l with
  | nil => simp
  | cons a l ih =>
    intro x hx
    rw [List.map_cons, List.sum_cons] at hz
    have hrest : 0 ≤ (l.map f).sum :=
      List.sum_nonneg (by
        intro v hv
        obtain ⟨i, hi, hfi⟩ := List.mem_map.mp hv
        rw [← hfi]
        exact hnn i (List.mem_cons_of_mem _ hi))
    have ha := hnn a (by simp)
    have haz : f a = 0 := by linarith
    have hlz : (l.map f).sum = 0 := by linarith
    rcases List.mem_cons.mp hx with hx | hx
    · subst hx; exact haz
    · exact ih (fun v hv => hnn v (List.mem_cons_of_mem _ hv)) hlz x hx

/-- Re-accumulating the durations of a well-formed segment list reproduces the
segments. -/
theorem accum_recon : ∀ (segs : List (ℚ × ℚ × String)) (t : ℚ),
    List.Chain' Contig segs →
    (∀ s ∈ segs, s.1 ≤ s.2.1 ∧ s.2.1 ≤ 48) →
    (∀ s, segs.head? = some s → s.1 = t) →
    accumSegs t (segs.map (fun s => (s.2.1 - s.1, s.2.2))) = segs := by
  intro segs
  induction segs with
  | nil => intro t _ _ _; rfl
  | cons s0 rest ih =>
    intro t hchain hb hh
    obtain ⟨sa, se, stag⟩ := s0
    have ht : sa = t := hh (sa, se, stag) rfl
    subst ht
    have hb0 := hb (sa, se, stag) (by simp)
    rw [List.map_cons, accumSegs]
    have hdd : max 0 (se - sa) = se - sa := max_eq_right (by linarith [hb0.1])
    have he : min 48 (sa + (se - sa)) = se := by
      have hse : sa + (se - sa) = se := by ring
      rw [hse]
      exact min_eq_right hb0.2
    rw [hdd, he]
    congr 1
    have hch' := List.chain'_cons'.mp hchain
    refine ih se hch'.2 (fun s hs => hb s (List.mem_cons_of_mem _ hs)) ?_
    intro s hs
    exact hch'.1 s hs

/-- The drift guard is the identity when the last end is already 48. -/
theorem forceLast48_id : ∀ segs : List (ℚ × ℚ × String),
    (∀ s, segs.getLast? = some s → s.2.1 = 48) → forceLast48 segs = segs
  | [], _ => rfl
  | [(a, b, tag)], h => by
    have := h (a, b, tag) (by simp)
    simp only [forceLast48]
    rw [← this]
  | ⟨xa, xb, xt⟩ :: y :: rest, h => by
    rw [forceLast48]
    congr 1
    refine forceLast48_id (y :: rest) ?_
    intro s hs
    refine h s ?_
    rw [List.getLast?_cons_cons]
    exact hs

theorem getD_nonneg (l : List ℚ) (h : ∀ x ∈ l, 0 ≤ x) (i : ℕ) : 0 ≤ l.getD i 0 := by
  rcases lt_or_ge i l.length with hi | hi
  · rw [List.getD_eq_getElem?_getD, List.getElem?_eq_getElem hi]
    exact h _ (List.getElem_mem hi)
  · rw [List.getD_eq_getElem?_getD, List.getElem?_eq_none hi]
    rfl

theorem getD_in_range (l : List ℚ) (i : ℕ) (h : i < l.length) : l.getD i 0 = l[i] := by
  rw [List.getD_eq_getElem?_getD, List.getElem?_eq_getElem h]
  rfl

theorem getD_str_in_range (l : List String) (i : ℕ) (h : i < l.length) :
    l.getD i "" = l[i] := by
  rw [List.getD_eq_getElem?_getD, List.getElem?_eq_getElem h]
  rfl

theorem zipWith_map_same (f : ℚ → ℚ → ℚ) (g h' : (ℚ × ℚ × String) → ℚ)
    (l : List (ℚ × ℚ × String)) :
    List.zipWith f (l.map g) (l.map h') = l.map (fun x => f (g x) (h' x)) := by
  induction l with
  | nil => rfl
  | cons a l ih => simp [ih]

theorem fillIdx_length (raw : List ℚ) (idxs : List ℕ) (v : ℚ) :
    (fillIdx raw idxs v).length = raw.length := by
  simp [fillIdx]

theorem fillIdx_getD (raw : List ℚ) (idxs : List ℕ) (v : ℚ) (i : ℕ)
    (hi : i < raw.length) :
    (fillIdx raw idxs v).getD i 0 = if i ∈ idxs then v else raw.getD i 0 := by
  have hi' : i < (fillIdx raw idxs v).length := by rw [fillIdx_length]; exact hi
  rw [getD_in_range _ _ hi', getD_in_range _ _ hi]
  simp [fillIdx]

theorem resolveArch_update (p : Player) (arch : Archetype)
    (h : resolveArch p = some arch) (em : ℚ) (raw : List ℚ) :
    resolveArch { p with expected_minutes := em, stints_raw := raw } = some arch := by
  rw [← h]
  rfl

/-- `compute_segments` of a player whose minutes and weights were just
replaced, written without record projections. -/
theorem compute_segments_update (p : Player) (arch : Archetype)
    (h : resolveArch p = some arch) (em : ℚ) (raw : List ℚ) :
    compute_segments { p with expected_minutes := em, stints_raw := raw }
      = forceLast48 (accumSegs 0 (stintDurations
          (ensure_default_percentages { p with expected_minutes := em, stints_raw := raw })
          arch.stint_pattern (max 0 (min 48 em)) (max 0 (48 - max 0 (min 48 em))))) := by
  simp only [compute_segments, resolveArch_update p arch h em raw]

/-- `ensure_default_percentages` of an updated player, written out on its new
`stints_raw`. -/
theorem ensure_update (p : Player) (arch : Archetype)
    (h : resolveArch p = some arch) (em : ℚ) (raw : List ℚ) :
    ensure_default_percentages { p with expected_minutes := em, stints_raw := raw }
      = (if offIndices arch.stint_pattern ≠ [] ∧
            ((offIndices arch.stint_pattern).map (fun i =>
              (raw ++ List.replicate (arch.stint_pattern.length - raw.length) 0).getD i 0)).sum = 0
         then fillIdx
            (if onIndices arch.stint_pattern ≠ [] ∧
                ((onIndices arch.stint_pattern).map (fun i =>
                  (raw ++ List.replicate (arch.stint_pattern.length - raw.length) 0).getD i 0)).sum = 0
             then fillIdx (raw ++ List.replicate (arch.stint_pattern.length - raw.length) 0)
                (onIndices arch.stint_pattern) (1 / ((onIndices arch.stint_pattern).length : ℚ))
             else raw ++ List.replicate (arch.stint_pattern.length - raw.length) 0)
            (offIndices arch.stint_pattern) (1 / ((offIndices arch.stint_pattern).length : ℚ))
         else
           (if onIndices arch.stint_pattern ≠ [] ∧
                ((onIndices arch.stint_pattern).map (fun i =>
                  (raw ++ List.replicate (arch.stint_pattern.length - raw.length) 0).getD i 0)).sum = 0
            then fillIdx (raw ++ List.replicate (arch.stint_pattern.length - raw.length) 0)
                (onIndices arch.stint_pattern) (1 / ((onIndices arch.stint_pattern).length : ℚ))
            else raw ++ List.replicate (arch.stint_pattern.length - raw.length) 0)).take
          arch.stint_pattern.length := by
  simp only [ensure_default_percentages, resolveArch_update p arch h em raw]

/-- `apply_boundaries` of a resolvable player with a nonempty pattern, written
out on its sanitized boundary list. -/
theorem apply_boundaries_eq (p : Player) (arch : Archetype)
    (h : resolveArch p = some arch) (hL0 : ¬(arch.stint_pattern.length = 0))
    (ends : List ℚ) (minGap : ℚ) :
    apply_boundaries p ends minGap =
      { p with
        expected_minutes := max 0 (min 48 (((onIndices arch.stint_pattern).map (fun i =>
          (boundaryDurations (sanitize_ends minGap arch.stint_pattern.length ends)).getD i 0)).sum)),
        stints_raw := (List.range arch.stint_pattern.length).map (fun i =>
          if i ∈ onIndices arch.stint_pattern then
            (if ((onIndices arch.stint_pattern).map (fun j =>
                (boundaryDurations (sanitize_ends minGap arch.stint_pattern.length ends)).getD j 0)).sum > 0
             then (boundaryDurations (sanitize_ends minGap arch.stint_pattern.length ends)).getD i 0
                / ((onIndices arch.stint_pattern).map (fun j =>
                    (boundaryDurations (sanitize_ends minGap arch.stint_pattern.length ends)).getD j 0)).sum
             else 0)
          else if i ∈ offIndices arch.stint_pattern then
            (if ((offIndices arch.stint_pattern).map (fun j =>
                (boundaryDurations (sanitize_ends minGap arch.stint_pattern.length ends)).getD j 0)).sum > 0
             then (boundaryDurations (sanitize_ends minGap arch.stint_pattern.length ends)).getD i 0
                / ((offIndices arch.stint_pattern).map (fun j =>
                    (boundaryDurations (sanitize_ends minGap arch.stint_pattern.length ends)).getD j 0)).sum
             else 0)
          else 0) } := by
  simp only [apply_boundaries, h]
  rw [if_neg hL0]

/-- Pointwise value of the per-stint duration list. -/
theorem stintDurations_getElem (raw : List ℚ) (pattern : List String) (a b : ℚ)
    (i : ℕ) (hi : i < pattern.length)
    (hi2 : i < (stintDurations raw pattern a b).length) :
    (stintDurations raw pattern a b)[i]
      = (if pattern[i] = "on" then ((if a > 0 then raw.getD i 0 * a else 0), pattern[i])
         else ((if b > 0 then raw.getD i 0 * b else 0), pattern[i])) := by
  have hie : i < pattern.enum.length := by
    simpa [List.enum_eq_enumFrom] using hi
  simp only [stintDurations]
  rw [List.getElem_map]
  have henum : (pattern.enum)[i] = (i, pattern[i]) := by
    simpa using List.getElem_enumFrom pattern 0 i (by simpa using hi)
  rw [henum]

/-- Claim C2 (amended): for every player whose archetype resolves, if the
default boundary list equals the non-final segment end-times (the best-effort
clamp in `compute_default_boundaries` is the identity) and it also passes the
`apply_boundaries` sanitizer unchanged, then applying those boundaries and
recomputing reproduces the segments exactly (hence within any tolerance). -/
theorem round_trip_exact (p : Player) (arch : Archetype)
    (h : resolveArch p = some arch) (minGap : ℚ)
    (hd : compute_default_boundaries p
        = ((compute_segments p).dropLast).map (fun s => s.2.1))
    (hsan : sanitize_ends minGap arch.stint_pattern.length (compute_default_boundaries p)
        = compute_default_boundaries p) :
    compute_segments (apply_boundaries p (compute_default_boundaries p) minGap)
      = compute_segments p := by
  by_cases hL0 : arch.stint_pattern.length = 0
  · have hnoop : apply_boundaries p (compute_default_boundaries p) minGap = p := by
      simp [apply_boundaries, h, hL0]
    rw [hnoop]
  · obtain ⟨hlen, htag, hchain, hbnd, hhead, hlast⟩ := compute_segments_props p arch h
    have hne : compute_segments p ≠ [] := by
      intro hc
      rw [hc] at hlen
      exact hL0 hlen.symm
    rw [apply_boundaries_eq p arch h hL0 _ minGap, hsan, hd]
    set segs := compute_segments p with hsegsdef
    set ends := segs.dropLast.map (fun s => s.2.1) with hendsdef
    set D := boundaryDurations ends with hDdef
    set onI := onIndices arch.stint_pattern with honIdef
    set offI := offIndices arch.stint_pattern with hoffIdef
    set onT := (onI.map (fun j => D.getD j 0)).sum with honTdef
    set offT := (offI.map (fun j => D.getD j 0)).sum with hoffTdef
    set R := (List.range arch.stint_pattern.length).map (fun i =>
      if i ∈ onI then (if onT > 0 then D.getD i 0 / onT else 0)
      else if i ∈ offI then (if offT > 0 then D.getD i 0 / offT else 0)
      else 0) with hRdef
    -- structural decompositions of `segs`
    obtain ⟨g0, grest, hg⟩ : ∃ a l, segs = a :: l := by
      cases hx : segs with
      | nil => exact absurd hx hne
      | cons a l => exact ⟨a, l, rfl⟩
    have hg0 : g0.1 = 0 := hhead g0 (by rw [hg]; rfl)
    have hstart : segs.map (fun s => s.1) = 0 :: ends := by
      rw [hendsdef, hg, starts_eq_ends g0 grest (hg ▸ hchain), hg0]
    obtain ⟨sl, hsl⟩ : ∃ sl, segs.getLast? = some sl := by
      cases hx : segs.getLast? with
      | none =>
        rw [List.getLast?_eq_none_iff] at hx
        exact absurd hx hne
      | some s => exact ⟨s, rfl⟩
    have hsl48 : sl.2.1 = 48 := hlast sl hsl
    have hend : segs.map (fun s => s.2.1) = ends ++ [48] := by
      rw [hendsdef]
      conv_lhs => rw [← List.dropLast_append_getLast hne, List.map_append]
      congr 1
      have hgl : segs.getLast hne = sl := by
        have h2 := List.getLast?_eq_getLast segs hne
        rw [hsl] at h2
        exact (Option.some_inj.mp h2).symm
      simp [hgl, hsl48]
    have hDs : D = segs.map (fun s => s.2.1 - s.1) := by
      rw [hDdef, boundaryDurations, ← hend, ← hstart, zipWith_map_same]
      refine List.map_congr_left ?_
      intro s hs
      exact max_eq_right (by linarith [(hbnd s hs).2.1])
    have hDnn : ∀ j, 0 ≤ D.getD j 0 := by
      refine getD_nonneg D ?_
      rw [hDs]
      intro x hx
      obtain ⟨s, hs, rfl⟩ := List.mem_map.mp hx
      linarith [(hbnd s hs).2.1]
    have hDlen : D.length = arch.stint_pattern.length := by
      rw [hDs, List.length_map, hlen]
    have hDsum : D.sum = 48 := by
      rw [hDs, hg, telescope_sum grest g0 (hg ▸ hchain) sl (by rw [← hg]; exact hsl),
        hsl48, hg0]
      ring
    have hsplit : onT + offT = 48 := by
      rw [honTdef, hoffTdef, honIdef, hoffIdef, onIndices, offIndices,
        sum_getD_filter_partition arch.stint_pattern.length
          (fun i => arch.stint_pattern.getD i "" == "on") (fun i => D.getD i 0),
        ← hDlen, sum_range_getD, hDsum]
    have honTnn : 0 ≤ onT := by
      rw [honTdef]
      refine List.sum_nonneg ?_
      intro x hx
      obtain ⟨j, _, rfl⟩ := List.mem_map.mp hx
      exact hDnn j
    have hoffTnn : 0 ≤ offT := by
      rw [hoffTdef]
      refine List.sum_nonneg ?_
      intro x hx
      obtain ⟨j, _, rfl⟩ := List.mem_map.mp hx
      exact hDnn j
    have honT48 : onT ≤ 48 := by linarith
    have hexp : max 0 (min 48 onT) = onT := by
      rw [min_eq_right honT48, max_eq_right honTnn]
    rw [hexp, compute_segments_update p arch h onT R, hexp]
    have hoff'' : max 0 (48 - onT) = offT := by
      have h1 : (48:ℚ) - onT = offT := by linarith
      rw [h1]
      exact max_eq_right hoffTnn
    rw [hoff'']
    -- membership facts about the index groups
    have honmem : ∀ i, i ∈ onI ↔ i < arch.stint_pattern.length
        ∧ arch.stint_pattern.getD i "" = "on" := by
      intro i
      rw [honIdef, mem_onIndices]
    have hoffmem : ∀ i, i ∈ offI ↔ i < arch.stint_pattern.length
        ∧ ¬(arch.stint_pattern.getD i "" = "on") := by
      intro i
      rw [hoffIdef, mem_offIndices]
    have hdisj : ∀ i, i ∈ onI → i ∉ offI := by
      intro i h1 h2
      exact ((hoffmem i).mp h2).2 ((honmem i).mp h1).2
    have hdisj' : ∀ i, i ∈ offI → i ∉ onI := by
      intro i h1 h2
      exact ((hoffmem i).mp h1).2 ((honmem i).mp h2).2
    have hRlen : R.length = arch.stint_pattern.length := by
      rw [hRdef, List.length_map, List.length_range]
    have hRgetD : ∀ i, i < arch.stint_pattern.length → R.getD i 0 =
        (if i ∈ onI then (if onT > 0 then D.getD i 0 / onT else 0)
         else if i ∈ offI then (if offT > 0 then D.getD i 0 / offT else 0) else 0) := by
      intro i hi
      rw [hRdef, getD_in_range _ i (by rw [List.length_map, List.length_range]; exact hi),
        List.getElem_map, List.getElem_range]
    have hRon : ∀ i ∈ onI, R.getD i 0 = (if onT > 0 then D.getD i 0 / onT else 0) := by
      intro i hi
      rw [hRgetD i ((honmem i).mp hi).1, if_pos hi]
    have hRoff : ∀ i ∈ offI, R.getD i 0 = (if offT > 0 then D.getD i 0 / offT else 0) := by
      intro i hi
      rw [hRgetD i ((hoffmem i).mp hi).1, if_neg (hdisj' i hi), if_pos hi]
    have hpad : R ++ List.replicate (arch.stint_pattern.length - R.length) 0 = R := by
      rw [hRlen, Nat.sub_self, List.replicate_zero, List.append_nil]
    have hens := ensure_update p arch h onT R
    rw [hpad, ← honIdef, ← hoffIdef] at hens
    -- the ensured weights on each group, when the group total is positive
    have hensOn : ∀ i ∈ onI, 0 < onT →
        (ensure_default_percentages
          { p with expected_minutes := onT, stints_raw := R }).getD i 0
          = D.getD i 0 / onT := by
      intro i hi hpos
      have honSum : (onI.map (fun j => R.getD j 0)).sum = 1 := by
        have hmapc : onI.map (fun j => R.getD j 0) = onI.map (fun j => D.getD j 0 / onT) := by
          refine List.map_congr_left ?_
          intro j hj
          rw [hRon j hj, if_pos hpos]
        rw [hmapc, sum_map_div, ← honTdef]
        exact div_self (ne_of_gt hpos)
      have honcond : ¬(onI ≠ [] ∧ (onI.map (fun j => R.getD j 0)).sum = 0) := by
        rintro ⟨_, hzero⟩
        rw [honSum] at hzero
        norm_num at hzero
      rw [hens, if_neg honcond]
      by_cases hoffc : offI ≠ [] ∧ (offI.map (fun j => R.getD j 0)).sum = 0
      · rw [if_pos hoffc]
        have hlen' : arch.stint_pattern.length
            = (fillIdx R offI (1 / (offI.length : ℚ))).length := by
          rw [fillIdx_length, hRlen]
        rw [hlen', List.take_length,
          fillIdx_getD _ _ _ i (by rw [hRlen]; exact ((honmem i).mp hi).1),
          if_neg (hdisj i hi), hRon i hi, if_pos hpos]
      · rw [if_neg hoffc]
        have hlen' : arch.stint_pattern.length = R.length := hRlen.symm
        rw [hlen', List.take_length, hRon i hi, if_pos hpos]
    have hensOff : ∀ i ∈ offI, 0 < offT →
        (ensure_default_percentages
          { p with expected_minutes := onT, stints_raw := R }).getD i 0
          = D.getD i 0 / offT := by
      intro i hi hpos
      have hoffSum : (offI.map (fun j => R.getD j 0)).sum = 1 := by
        have hmapc : offI.map (fun j => R.getD j 0) = offI.map (fun j => D.getD j 0 / offT) := by
          refine List.map_congr_left ?_
          intro j hj
          rw [hRoff j hj, if_pos hpos]
        rw [hmapc, sum_map_div, ← hoffTdef]
        exact div_self (ne_of_gt hpos)
      have hoffcond : ¬(offI ≠ [] ∧ (offI.map (fun j => R.getD j 0)).sum = 0) := by
        rintro ⟨_, hzero⟩
        rw [hoffSum] at hzero
        norm_num at hzero
      rw [hens, if_neg hoffcond]
      by_cases honc : onI ≠ [] ∧ (onI.map (fun j => R.getD j 0)).sum = 0
      · rw [if_pos honc]
        have hlen' : arch.stint_pattern.length
            = (fillIdx R onI (1 / (onI.length : ℚ))).length := by
          rw [fillIdx_length, hRlen]
        rw [hlen', List.take_length,
          fillIdx_getD _ _ _ i (by rw [hRlen]; exact ((hoffmem i).mp hi).1),
          if_neg (hdisj' i hi), hRoff i hi, if_pos hpos]
      · rw [if_neg honc]
        have hlen' : arch.stint_pattern.length = R.length := hRlen.symm
        rw [hlen', List.take_length, hRoff i hi, if_pos hpos]
    -- zero group totals force zero durations
    have hDzeroOn : onT = 0 → ∀ i ∈ onI, D.getD i 0 = 0 := by
      intro hz i hi
      refine sum_map_nonneg_zero onI (fun j => D.getD j 0) (fun j _ => hDnn j) ?_ i hi
      rw [← honTdef]
      exact hz
    have hDzeroOff : offT = 0 → ∀ i ∈ offI, D.getD i 0 = 0 := by
      intro hz i hi
      refine sum_map_nonneg_zero offI (fun j => D.getD j 0) (fun j _ => hDnn j) ?_ i hi
      rw [← hoffTdef]
      exact hz
    -- the per-stint durations of the updated player equal the old ones
    have hstint : stintDurations (ensure_default_percentages
          { p with expected_minutes := onT, stints_raw := R })
        arch.stint_pattern onT offT = segs.map (fun s => (s.2.1 - s.1, s.2.2)) := by
      refine List.ext_getElem ?_ ?_
      · rw [stintDurations_length, List.length_map, hlen]
      · intro i h1 h2
        have hiL : i < arch.stint_pattern.length := by
          rw [stintDurations_length] at h1
          exact h1
        have hiS : i < segs.length := by rw [hlen]; exact hiL
        have him : i < (segs.map (fun s => s.2.1 - s.1)).length := by
          rw [List.length_map]; exact hiS
        have hDi : D.getD i 0 = segs[i].2.1 - segs[i].1 := by
          calc D.getD i 0 = (segs.map (fun s => s.2.1 - s.1)).getD i 0 := by rw [hDs]
            _ = (segs.map (fun s => s.2.1 - s.1))[i] := by
                rw [getD_in_range _ _ him]
            _ = segs[i].2.1 - segs[i].1 := by rw [List.getElem_map]
        have htagi : arch.stint_pattern[i] = segs[i].2.2 := by
          have h3 := List.getElem_of_eq htag.symm hiL
          rw [h3, List.getElem_map]
        rw [stintDurations_getElem _ _ _ _ i hiL h1, List.getElem_map]
        by_cases hon : arch.stint_pattern[i] = "on"
        · have hion : i ∈ onI := (honmem i).mpr ⟨hiL, by
            rw [getD_str_in_range _ _ hiL]; exact hon⟩
          rw [if_pos hon]
          refine Prod.ext ?_ (by rw [htagi])
          show (if onT > 0 then (ensure_default_percentages
            { p with expected_minutes := onT, stints_raw := R }).getD i 0 * onT else 0)
              = segs[i].2.1 - segs[i].1
          by_cases hpos : onT > 0
          · rw [if_pos hpos, hensOn i hion hpos, div_mul_cancel₀ _ (ne_of_gt hpos), hDi]
          · have hz : onT = 0 := le_antisymm (not_lt.mp hpos) honTnn
            rw [if_neg hpos, ← hDi, hDzeroOn hz i hion]
        · have hioff : i ∈ offI := (hoffmem i).mpr ⟨hiL, by
            rw [getD_str_in_range _ _ hiL]; exact hon⟩
          rw [if_neg hon]
          refine Prod.ext ?_ (by rw [htagi])
          show (if offT > 0 then (ensure_default_percentages
            { p with expected_minutes := onT, stints_raw := R }).getD i 0 * offT else 0)
              = segs[i].2.1 - segs[i].1
          by_cases hpos : offT > 0
          · rw [if_pos hpos, hensOff i hioff hpos, div_mul_cancel₀ _ (ne_of_gt hpos), hDi]
          · have hz : offT = 0 := le_antisymm (not_lt.mp hpos) hoffTnn
            rw [if_neg hpos, ← hDi, hDzeroOff hz i hioff]
    rw [hstint,
      accum_recon segs 0 hchain (fun s hs => ⟨(hbnd s hs).2.1, (hbnd s hs).2.2⟩) hhead]
    exact forceLast48_id segs hlast

/-- Witness for C2's amended claim: the example-1 player round-trips exactly. -/
theorem round_trip_exact_witness :
    compute_segments (apply_boundaries (samplePlayer (some "StarterCloserThreeStints") 30 [])
        (compute_default_boundaries (samplePlayer (some "StarterCloserThreeStints") 30 []))
        (1/1000))
      = compute_segments (samplePlayer (some "StarterCloserThreeStints") 30 []) :=
  round_trip_exact (samplePlayer (some "StarterCloserThreeStints") 30 [])
    ⟨"StarterCloserThreeStints", "Starter, 3 on-stints, closer-capable", true,
      ["on", "off", "on", "off", "on"]⟩
    (by decide) (1/1000) (by decide) (by decide)

set_option maxRecDepth 4000 in
/-- Counterexample to C2 as stated: for `StarterCloserThreeStints` with
`expected_minutes = 48` and `stints_raw = [1, 0, 0, 0, 0]`, the round trip
moves the first segment's end from 48 to 47.997, a deviation of 0.003 > 1e-6
(the degenerate zero-width segments force the sanitizer to shift the
boundaries). -/
theorem round_trip_violated :
    ((compute_segments (samplePlayer (some "StarterCloserThreeStints") 48
      [1, 0, 0, 0, 0])).getD 0 (0, 0, "")).2.1 = 48 ∧
    ((compute_segments (apply_boundaries
        (samplePlayer (some "StarterCloserThreeStints") 48 [1, 0, 0, 0, 0])
        (compute_default_boundaries
          (samplePlayer (some "StarterCloserThreeStints") 48 [1, 0, 0, 0, 0]))
        (1/1000))).getD 0 (0, 0, "")).2.1 = 47997/1000 ∧
    ¬(|(48 : ℚ) - 47997/1000| ≤ 1/1000000) := by
  refine ⟨by decide, by decide, ?_⟩
  intro hc
  rw [show (48 : ℚ) - 47997/1000 = 3/1000 by norm_num,
    abs_of_pos (by norm_num)] at hc
  norm_num at hc

end NbaRotations
